import Mathlib

/-!
Verification model of the `scraper1` repository (source files `scraper1.py`
and `mayor_scraper.py`): a two-stage Selenium/BeautifulSoup crawler that
walks a paginated listing of Bulgarian municipality pages, collects
detail-page links, and extracts mayor names and e-mail addresses from each
detail page.

The pure computational core of both scripts is embedded shallowly:

* the e-mail regular expression
  `[A-Za-z0-9._%+\-]+@[A-Za-z0-9.\-]+\.[A-Za-z]{2,}` together with Python's
  `re.findall` (left-to-right non-overlapping scan with greedy
  backtracking), `re.match` (anchored prefix attempt) and `re.search`
  semantics;
* a document-tree model of the parsed pages with the BeautifulSoup
  traversals the scripts use (`find_all`, `find`, `get_text`, `parent`,
  `find_next_sibling`, `find_next`, `find_parent`, tag serialization);
* `find_emails_in_html`, `collect_municipality_links_from_page`,
  `extract_mayor_from_municipality` (both script variants), the pagination
  loop of `main`, its two URL-deduplication passes, the per-link extraction
  loop with its `try/except`, and the CSV rows written at the end.

Python string primitives (`in`, `str.lower`, `str.strip`, `str.replace`,
`str.startswith`, `sorted`) are modelled by explicit structural functions
over the character lists, so that every definition evaluates by kernel
reduction.  Where a loop consumes a computed number of characters per
step, the recursion is driven by an explicit character budget that is
always sufficient (each step consumes at least one character), keeping the
function structurally recursive without changing its value.

Browser effects (navigation, clicking, waiting) are modelled by explicit
parameters: the document each listing page shows, whether the next-page
control could be found and clicked on a given page (`click_next_page`
returns a boolean and swallows every exception), and whether fetching a
detail page raised (`Option Node`: `none` models an exception escaping
`extract_mayor_from_municipality`).  A `Node` value passed to a page-level
function always stands for the BeautifulSoup root object (`[document]`);
its children are the parsed markup.
-/

/-! ## Python string primitives -/

/-- Does `needle` occur at the very start of the haystack
(`str.startswith` on character lists)? -/
def startsList : List Char → List Char → Bool
  | _, [] => true
  | [], _ :: _ => false
  | c :: cs, d :: ds => c == d && startsList cs ds

/-- Python's `needle in haystack` on character lists. -/
def hasSubList : List Char → List Char → Bool
  | [], needle => needle.isEmpty
  | c :: cs, needle => startsList (c :: cs) needle || hasSubList cs needle

/-- Python's `needle in haystack` for Lean strings. -/
def strContains (haystack needle : String) : Bool :=
  hasSubList haystack.data needle.data

/-- Python's `str.startswith` for Lean strings. -/
def strStarts (s p : String) : Bool := startsList s.data p.data

/-- The whitespace characters of Python's `\s` class and `str.strip` as
the scraped pages use them (ASCII whitespace). -/
def isSpaceChar (c : Char) : Bool :=
  c == ' ' || c == '\t' || c == '\n' || c == '\r' || c == '\x0b' || c == '\x0c'

/-- Python's `str.strip()`: drop whitespace from both ends. -/
def pyStrip (s : String) : String :=
  (((s.data.dropWhile isSpaceChar).reverse.dropWhile isSpaceChar).reverse).asString

/-- One pass of Python's `str.replace`, scanning left to right and
replacing non-overlapping occurrences.  The budget is the length of the
remaining input (each step consumes at least one character, so it never
runs out; it only makes the recursion structural).  The needle is
non-empty at every use site. -/
def replaceGo (needle repl : List Char) : Nat → List Char → List Char
  | 0, s => s
  | _ + 1, [] => []
  | budget + 1, c :: cs =>
      if startsList (c :: cs) needle then
        repl ++ replaceGo needle repl budget (cs.drop (needle.length - 1))
      else c :: replaceGo needle repl budget cs

/-- Python's `str.replace` for Lean strings. -/
def pyReplace (s needle repl : String) : String :=
  (replaceGo needle.data repl.data s.data.length s.data).asString

/-- Code-point lexicographic strict order on character lists: exactly the
string order Python's `sorted` uses. -/
def strLtB : List Char → List Char → Bool
  | [], [] => false
  | [], _ :: _ => true
  | _ :: _, [] => false
  | c :: cs, d :: ds => decide (c.toNat < d.toNat) || (c == d && strLtB cs ds)

/-- Code-point lexicographic `≤` on Lean strings (Python's `sorted`
comparison). -/
def pyLe (a b : String) : Bool := a == b || strLtB a.data b.data

/-- Python's `str.lower` restricted to the alphabets this program
manipulates: ASCII `A–Z` and Cyrillic `А–Я` / `Ё` are lowered, everything
else is unchanged. -/
def lowerChar (c : Char) : Char :=
  if c.isUpper then Char.ofNat (c.toNat + 32)
  else if 'А' ≤ c ∧ c ≤ 'Я' then Char.ofNat (c.toNat + 32)
  else if c = 'Ё' then 'ё'
  else c

/-- `str.lower` on a Lean string (same restriction as `lowerChar`). -/
def lowerStr (s : String) : String := (s.data.map lowerChar).asString

/-! ## Character classes of the e-mail regular expression

`email_re = re.compile(r"[A-Za-z0-9._%+\-]+@[A-Za-z0-9.\-]+\.[A-Za-z]{2,}")`
(`scraper1.py` line 38, `mayor_scraper.py` line 21).  The bracket classes
are ASCII-only even under `re.UNICODE`. -/

/-- `[A-Za-z]`: an ASCII letter. -/
def isAsciiLetter (c : Char) : Bool := c.isUpper || c.isLower

/-- `[A-Za-z0-9._%+\-]`: a character of the local part of the pattern. -/
def isLocalChar (c : Char) : Bool :=
  isAsciiLetter c || c.isDigit || c == '.' || c == '_' || c == '%' || c == '+' || c == '-'

/-- `[A-Za-z0-9.\-]`: a character of the domain part of the pattern. -/
def isDomainChar (c : Char) : Bool :=
  isAsciiLetter c || c.isDigit || c == '.' || c == '-'

/-! ## The regex engine on this pattern

A match attempt at a fixed position proceeds exactly as Python's
backtracking engine does on this pattern: the local part
`[A-Za-z0-9._%+\-]+` is a greedy run (giving characters back can never
help, because `@` is not a local character, so the attempt commits to the
maximal run); after the literal `@`, the domain run `[A-Za-z0-9.\-]+` is
consumed greedily and then given back one character at a time until the
next character is a literal `.` followed by a greedy run of at least two
ASCII letters (nothing follows the final `[A-Za-z]{2,}`, so the greedy
letter run is final). -/

/-- Backtracking search for the split point of the greedy domain run: try
the split points `n, n-1, ..., 1` (the engine's give-back order) and
return, for the first (largest) split point `k` such that `s2.drop k`
starts with `'.'` followed by at least two ASCII letters, the triple
`(s2.take k, letters, rest)` where `letters` is the greedy letter run
after the dot and `rest` is everything after that run. -/
def findDotSplit (s2 : List Char) : Nat → Option (List Char × List Char × List Char)
  | 0 => none
  | k + 1 =>
      match s2.drop (k + 1) with
      | '.' :: rest =>
          if 2 ≤ (rest.takeWhile isAsciiLetter).length then
            some (s2.take (k + 1), rest.takeWhile isAsciiLetter, rest.dropWhile isAsciiLetter)
          else findDotSplit s2 k
      | _ => findDotSplit s2 k

/-- Attempt to match `email_re` at the start of `s` — the semantics of
Python's `email_re.match(s)`.  On success, returns the matched token and
the remainder of the string after the match. -/
def matchAt (s : List Char) : Option (List Char × List Char) :=
  let l := s.takeWhile isLocalChar
  if l.isEmpty then none else
  match s.dropWhile isLocalChar with
  | '@' :: s2 =>
      let dom := s2.takeWhile isDomainChar
      if dom.isEmpty then none else
      match findDotSplit s2 dom.length with
      | some (d, letters, rest) => some (l ++ '@' :: (d ++ '.' :: letters), rest)
      | none => none
  | _ => none

/-- The scan of `email_re.findall`: at each position attempt a match; on
success emit the token and continue at the end of the match
(`match.end()`, i.e. `m.length` characters past the window start — one of
them is the head `c`); on failure advance one character.  The budget
argument is the length of the remaining input (each step consumes at
least one character, so it never runs out). -/
def scanGo : Nat → List Char → List (List Char)
  | 0, _ => []
  | _ + 1, [] => []
  | budget + 1, c :: rest =>
      match matchAt (c :: rest) with
      | some (m, _) => m :: scanGo budget (rest.drop (m.length - 1))
      | none => scanGo budget rest

/-- The semantics of `email_re.findall(s)`: all matches of the
left-to-right non-overlapping scan. -/
def scanEmails (s : List Char) : List (List Char) := scanGo s.length s

/-- The truthiness of `email_re.search(s)`: some position of `s` starts a
match. -/
def searchEmail : List Char → Bool
  | [] => false
  | c :: rest => (matchAt (c :: rest)).isSome || searchEmail rest

/-- `email_re.search` on a Lean string (BeautifulSoup applies this to text
nodes when it is given a compiled pattern as a filter). -/
def emailSearch (s : String) : Bool := searchEmail s.data

/-- `email_re.match` on a Lean string (used on `mailto:` payloads at
`scraper1.py` line 181). -/
def emailMatchStart (s : String) : Bool := (matchAt s.data).isSome

/-- Python's `sorted(set(l))` for strings: drop duplicates, sort ascending
by code points. -/
def sortedUnique (l : List String) : List String :=
  List.insertionSort (fun a b => pyLe a b = true) l.dedup

/-- `find_emails_in_html` (`scraper1.py` lines 40–43, `mayor_scraper.py`
lines 23–25): `sorted(set(email_re.findall(html)))`. -/
def find_emails_in_html (html : String) : List String :=
  sortedUnique ((scanEmails html.data).map List.asString)

/-! ## Canonical e-mail tokens

A string is a token of the canonical pattern when it splits as
`local ++ "@" ++ domain ++ "." ++ label` with a non-empty all-local-class
local part, a non-empty all-domain-class domain part, and a final label of
at least two ASCII letters. -/

/-- The three components of a well-formed token of the canonical e-mail
pattern. -/
def EmailTokenParts (l d a : List Char) : Prop :=
  l ≠ [] ∧ (∀ c ∈ l, isLocalChar c = true) ∧
  d ≠ [] ∧ (∀ c ∈ d, isDomainChar c = true) ∧
  2 ≤ a.length ∧ (∀ c ∈ a, isAsciiLetter c = true)

/-- `s` is a well-formed token of the canonical e-mail pattern. -/
def IsEmailToken (s : List Char) : Prop :=
  ∃ l d a, EmailTokenParts l d a ∧ s = l ++ '@' :: (d ++ '.' :: a)

/-! ## The document model

BeautifulSoup's parse tree, restricted to what the two scripts observe:
element tags with an attribute list and children, and text nodes
(`NavigableString`s).  A `Node` handed to a page-level function stands for
the soup root (`[document]`); its children are the parsed markup, so
`find_all`-style traversals search the descendants and never yield the
root itself, exactly like BeautifulSoup. -/

inductive Node where
  | text : String → Node
  | elem : String → List (String × String) → List Node → Node

/-- The children of a node (a text node has none). -/
def childrenOf : Node → List Node
  | Node.text _ => []
  | Node.elem _ _ cs => cs

/-- Is this node a tag with the given name? -/
def isTagNamed (name : String) : Node → Bool
  | Node.text _ => false
  | Node.elem t _ _ => t == name

/-- The value of an attribute of a tag, if present. -/
def attrOf (name : String) : Node → Option String
  | Node.text _ => none
  | Node.elem _ attrs _ => attrs.lookup name

/-- Serialized attribute list, ` key="value"` per entry (the shape
`str(tag)` prints). -/
def attrsString : List (String × String) → String
  | [] => ""
  | (k, v) :: rest => " " ++ k ++ "=" ++ "\"" ++ v ++ "\"" ++ attrsString rest

/-- `str(x)` serialization of a list of sibling subtrees: text nodes
verbatim, tags as full markup.  The `ctx` argument is the element whose
child list is being walked; it guides the structural recursion and does
not affect the result. -/
def serializeList (ctx : Node) : List Node → String
  | [] => ""
  | Node.text s :: rest => s ++ serializeList ctx rest
  | Node.elem t attrs cs :: rest =>
      "<" ++ t ++ attrsString attrs ++ ">" ++ serializeList (Node.elem t attrs cs) cs
        ++ "</" ++ t ++ ">" ++ serializeList ctx rest

/-- `str(x)` for one parse-tree node. -/
def serializeNode (n : Node) : String := serializeList n [n]

/-- All text-node strings of a list of sibling subtrees, in document order
(BeautifulSoup's `strings`).  The `ctx` argument is the element whose
child list is being walked; it guides the structural recursion and does
not affect the result. -/
def stringsOfList (ctx : Node) : List Node → List String
  | [] => []
  | Node.text s :: rest => s :: stringsOfList ctx rest
  | Node.elem t a cs :: rest =>
      stringsOfList (Node.elem t a cs) cs ++ stringsOfList ctx rest

/-- All text-node strings below a node (including the node itself when it
is a text node), in document order. -/
def stringsOf (n : Node) : List String := stringsOfList n [n]

/-- All descendant tags of a list of sibling subtrees in document
(pre)order: concatenated, this is `find_all(recursive=True)` with no name
filter.  The `ctx` argument is the element whose child list is being
walked; it guides the structural recursion and does not affect the
result. -/
def descTagsList (ctx : Node) : List Node → List Node
  | [] => []
  | Node.text _ :: rest => descTagsList ctx rest
  | Node.elem t a cs :: rest =>
      Node.elem t a cs :: (descTagsList (Node.elem t a cs) cs ++ descTagsList ctx rest)

/-- All descendant tags of a node in document order, excluding the node
itself: `node.find_all(recursive=True)`. -/
def descTags (n : Node) : List Node := descTagsList n (childrenOf n)

/-- The flattened document-order item stream of a list of sibling
subtrees: every node, tags immediately followed by their contents.  This
is BeautifulSoup's `next_elements` order.  The `ctx` argument is the
element whose child list is being walked; it guides the structural
recursion and does not affect the result. -/
def flatListIn (ctx : Node) : List Node → List Node
  | [] => []
  | Node.text s :: rest => Node.text s :: flatListIn ctx rest
  | Node.elem t a cs :: rest =>
      Node.elem t a cs :: (flatListIn (Node.elem t a cs) cs ++ flatListIn ctx rest)

/-- The document-order item stream of one subtree. -/
def flatNode (n : Node) : List Node := flatListIn n [n]

/-- The document-order item stream of a list of sibling subtrees. -/
def flatList (ns : List Node) : List Node := (ns.map flatNode).flatten

/-- BeautifulSoup's `get_text(separator, strip)`: join all text-node
strings of the subtree with the separator; with `strip`, each string is
stripped first and blank strings are skipped. -/
def getText (sep : String) (strip : Bool) (n : Node) : String :=
  let ss := stringsOf n
  let ss := if strip then (ss.map pyStrip).filter (fun x => !x.isEmpty) else ss
  String.intercalate sep ss

/-- The first tag among a list of following siblings:
`x.find_next_sibling()` with no arguments skips strings and returns the
next sibling tag. -/
def firstTagOf : List Node → Option Node
  | [] => none
  | Node.text _ :: rest => firstTagOf rest
  | Node.elem t a cs :: _ => some (Node.elem t a cs)

/-! ## `scraper1.py`: strategy 1 contexts

`extract_mayor_from_municipality` (lines 133–172) collects every text node
whose content matches a predicate and then navigates from each text node:
to its `parent` (the enclosing element), to `parent.find_next_sibling()`,
and to `parent.parent.find_next_sibling()`.  `textCtxList` performs one
traversal and records, for each matching text node in document order,
exactly that context. -/

/-- The navigation context of a matching text node: its parent element,
the parent's next sibling tag, and the grandparent's next sibling tag. -/
structure TextCtx where
  parent : Node
  parentNext : Option Node
  parentParentNext : Option Node

/-- Collect the contexts of all text nodes matching `pred` inside the
sibling list `cs`, whose common parent is `parent`, whose parent's next
sibling tag is `parentNext`, and whose grandparent's next sibling tag is
`parentParentNext`. -/
def textCtxList (pred : String → Bool) (parent : Node)
    (parentNext parentParentNext : Option Node) : List Node → List TextCtx
  | [] => []
  | Node.text s :: rest =>
      (if pred s then [⟨parent, parentNext, parentParentNext⟩] else []) ++
        textCtxList pred parent parentNext parentParentNext rest
  | Node.elem t a cs :: rest =>
      textCtxList pred (Node.elem t a cs) (firstTagOf rest) parentNext cs ++
        textCtxList pred parent parentNext parentParentNext rest

/-- The contexts of all text nodes of the document matching `pred`
(`soup.find_all(text=pred)` together with the parent/sibling lookups the
strategy-1 loop performs).  Text nodes directly below the soup root have
the root as parent and no grandparent. -/
def textCtxs (pred : String → Bool) (doc : Node) : List TextCtx :=
  textCtxList pred doc none none (childrenOf doc)

/-- `"".join(str(x) for x in parent.find_all(recursive=True))`
(`scraper1.py` line 149): concatenated serialization of every descendant
tag of the parent. -/
def surroundingHtml (parent : Node) : String :=
  String.join ((descTags parent).map serializeNode)

/-- The mayor-name candidate of one strategy-1 context (`scraper1.py`
lines 157–166): text of the parent's next sibling tag, and if that is
missing or blank, text of the grandparent's next sibling tag. -/
def candidateOf (ctx : TextCtx) : String :=
  let c1 := match ctx.parentNext with
    | some sib => getText " " true sib
    | none => ""
  if !c1.isEmpty then c1 else
    match ctx.parentParentNext with
    | some psib => getText " " true psib
    | none => ""

/-- The strategy-1 loop over matching text nodes (`scraper1.py` lines
147–172): each context contributes the e-mails found in its parent's
serialized descendants; the first context whose candidate text is
non-blank and shorter than 200 characters sets the mayor name and breaks
out of the loop (so later contexts contribute nothing). -/
def strategyLoop : List TextCtx → List String × String
  | [] => ([], "")
  | ctx :: rest =>
      let es := find_emails_in_html (surroundingHtml ctx.parent)
      let cand := pyStrip (candidateOf ctx)
      if !cand.isEmpty && cand.length < 200 then (es, cand)
      else
        let r := strategyLoop rest
        (es ++ r.fst, r.snd)

/-- The matched text-node contexts for the official title (`scraper1.py`
lines 133–141): text nodes containing `"Кмет на община"`, or, when there
are none, text nodes containing `"Кмет"` but not `"Общ."`. -/
def mayorTextCtxs (doc : Node) : List TextCtx :=
  let ctxs1 := textCtxs (fun t => strContains t "Кмет на община") doc
  if ctxs1.isEmpty then
    textCtxs (fun t => strContains t "Кмет" && !strContains t "Общ.") doc
  else ctxs1

/-- The outcome of strategy 1: the e-mails collected from the official
title contexts (in discovery order) and the mayor-name candidate. -/
def strategy1Result (doc : Node) : List String × String :=
  strategyLoop (mayorTextCtxs doc)

/-- The e-mail set produced by strategy 1 alone, in discovery order. -/
def strategy1Emails (doc : Node) : List String := (strategy1Result doc).fst

/-! ## `scraper1.py`: mailto fallback, page-text fallback, name fallback -/

/-- Python's `href.split(":", 1)[1].split("?")[0]` for a `mailto:` href:
everything after the first colon, cut at the first question mark
(`scraper1.py` line 180). -/
def mailtoPayload (href : String) : String :=
  (((href.data.dropWhile (fun c => c != ':')).drop 1).takeWhile
    (fun c => c != '?')).asString

/-- The whole-page `mailto:` fallback (`scraper1.py` lines 175–182): every
anchor with an href starting with `mailto:` contributes its payload,
provided `email_re.match` accepts the payload (an anchored prefix match —
the payload as a whole need not be a token). -/
def mailtoEmails (doc : Node) : List String :=
  ((descTags doc).filterMap (fun n =>
      if isTagNamed "a" n then attrOf "href" n else none)).filterMap
    (fun href =>
      if strStarts href "mailto:" then
        let addr := mailtoPayload href
        if emailMatchStart addr then some addr else none
      else none)

/-- Cyrillic capital letter of the name pattern (`[А-ЯЁ]`). -/
def isCyrUpper (c : Char) : Bool := ('А' ≤ c && c ≤ 'Я') || c == 'Ё'

/-- Cyrillic small letter of the name pattern (`[а-яё]`). -/
def isCyrLower (c : Char) : Bool := ('а' ≤ c && c ≤ 'я') || c == 'ё'

/-- One `[А-ЯЁ][а-яё]+` word at the start of the input: a Cyrillic capital
followed by a non-empty greedy run of Cyrillic small letters. -/
def nameGroup (s : List Char) : Option (List Char × List Char) :=
  match s with
  | c :: rest =>
      if isCyrUpper c then
        let low := rest.takeWhile isCyrLower
        if low.isEmpty then none
        else some (c :: low, rest.dropWhile isCyrLower)
      else none
  | [] => none

/-- One `\s+[А-ЯЁ][а-яё]+` group at the start of the input. -/
def spacedGroup (s : List Char) : Option (List Char × List Char) :=
  let sp := s.takeWhile isSpaceChar
  if sp.isEmpty then none else
  match nameGroup (s.dropWhile isSpaceChar) with
  | some (g, r) => some (sp ++ g, r)
  | none => none

/-- Match `[А-ЯЁ][а-яё]+(?:\s+[А-ЯЁ][а-яё]+){1,2}` at the start of the
input (greedy: a third word is taken when present).  The classes of the
pattern are pairwise disjoint, so the greedy runs never backtrack. -/
def matchNameAt (s : List Char) : Option (List Char) :=
  match nameGroup s with
  | none => none
  | some (g1, r1) =>
      match spacedGroup r1 with
      | none => none
      | some (g2, r2) =>
          match spacedGroup r2 with
          | some (g3, _) => some (g1 ++ g2 ++ g3)
          | none => some (g1 ++ g2)

/-- `name_candidate_re.search`: the leftmost match of the name pattern. -/
def nameSearch : List Char → Option (List Char)
  | [] => none
  | c :: rest =>
      match matchNameAt (c :: rest) with
      | some m => some m
      | none => nameSearch rest

/-- The structured name fallback (`scraper1.py` lines 190–199): the first
text node containing `"Кмет"` whose stripped text has a match of the name
pattern contributes that match. -/
def mayorNameFallback (doc : Node) : String :=
  match ((stringsOf doc).filter (fun t => strContains t "Кмет")).findSome?
      (fun t => nameSearch (pyStrip t).data) with
  | some nm => nm.asString
  | none => ""

/-! ## `scraper1.py`: the full detail-page extractor -/

/-- The result record one detail page yields (the `result` dict of both
scripts): municipality name, mayor name, e-mail list, source URL. -/
structure ExtractionResult where
  municipality : String
  mayor : String
  emails : List String
  url : String
deriving DecidableEq

/-- The e-mails accumulated across the ordered strategy chain, before the
final `sorted(set(...))` (`scraper1.py` lines 144–187): strategy 1; when
it found nothing, the whole-page `mailto:` scan; when both found nothing,
`find_emails_in_html` over `soup.get_text(" ")`. -/
def discoveredEmails (doc : Node) : List String :=
  let e1 := strategy1Emails doc
  let e2 := if e1.isEmpty then mailtoEmails doc else e1
  if e2.isEmpty then find_emails_in_html (getText " " false doc) else e2

/-- `extract_mayor_from_municipality` of `scraper1.py` (lines 110–203),
applied to the parsed document `doc` of the already-navigated page:
municipality from the first `h1`/`h2`, mayor name from strategy 1 with the
structured fallback, e-mails from the strategy chain, sorted and
deduplicated. -/
def extract_mayor_from_municipality (doc : Node) (url : String) : ExtractionResult :=
  let municipality := match (descTags doc).find?
      (fun n => isTagNamed "h1" n || isTagNamed "h2" n) with
    | some h => getText "" true h
    | none => ""
  let nm := (strategy1Result doc).snd
  { municipality := municipality
    mayor := if nm.isEmpty then mayorNameFallback doc else nm
    emails := sortedUnique (discoveredEmails doc)
    url := url }

/-! ## `mayor_scraper.py`: the label-based detail-page extractor

This variant clicks the `Информация` control (a browser effect, swallowed
on failure), possibly switches to a newly opened window, and re-parses the
page.  The model therefore takes two documents: `docBefore` (the page as
first parsed, used only for the `h1` heading) and `docAfter` (the page as
re-parsed after the click/switch; when the click failed this is the same
page).  The label lookups use `find` / `find_next` / `find_next_sibling` /
`find_parent`, which need the ancestors and following siblings of the
first matching text node; `findFirstString` computes them in one
traversal. -/

/-- One ancestor of a node together with the raw sibling nodes (tags and
strings) that follow it. -/
structure Anc where
  node : Node
  sibsAfter : List Node

/-- The context of the first matching text node found by
`soup.find(string=pred)`: its content and its ancestor chain (nearest
first, each with its following siblings). -/
structure LabelInfo where
  content : String
  ancs : List Anc

/-- Depth-first search for the first text node matching `pred` among the
sibling subtrees, whose ancestor chain is `ancs` (nearest first).  The
`ctx` argument is the element whose child list is being walked (the head
of `ancs`); it guides the structural recursion and does not affect the
result. -/
def findFirstString (pred : String → Bool) (ctx : Node) :
    List Node → List Anc → Option LabelInfo
  | [], _ => none
  | Node.text s :: rest, ancs =>
      if pred s then some ⟨s, ancs⟩ else findFirstString pred ctx rest ancs
  | Node.elem t a cs :: rest, ancs =>
      match findFirstString pred (Node.elem t a cs) cs (⟨Node.elem t a cs, rest⟩ :: ancs) with
      | some info => some info
      | none => findFirstString pred ctx rest ancs

/-- `soup.find(string=pred)` on a document. -/
def findLabel (pred : String → Bool) (doc : Node) : Option LabelInfo :=
  findFirstString pred doc (childrenOf doc) [⟨doc, []⟩]

/-- The `next_elements` stream of the label's parent: the parent's own
contents in document order, then for each ancestor (nearest first) the
flattened following siblings.  `parent.find_next(...)` searches this
stream. -/
def afterStream (info : LabelInfo) : List Node :=
  let parentChildren := match info.ancs.head? with
    | some a => childrenOf a.node
    | none => []
  flatList parentChildren ++ (info.ancs.map (fun a => flatList a.sibsAfter)).flatten

/-- Filter for `find_next("a", href=lambda h: h and "mailto:" in h)`:
an anchor tag whose href contains `mailto:` yields the href. -/
def mailtoHrefOf (n : Node) : Option String :=
  if isTagNamed "a" n then
    match attrOf "href" n with
    | some h => if strContains h "mailto:" then some h else none
    | none => none
  else none

/-- Filter for `find_next(text=email_re)` and
`find_next_sibling(text=email_re)`: a text node whose content has a
search match of `email_re` yields its content. -/
def textWithEmail (n : Node) : Option String :=
  match n with
  | Node.text s => if emailSearch s then some s else none
  | Node.elem _ _ _ => none

/-- `mailto["href"].replace("mailto:", "").split("?")[0].strip()`
(`mayor_scraper.py` line 130). -/
def mailtoAddrOfHref (h : String) : String :=
  pyStrip (((pyReplace h "mailto:" "").data.takeWhile (fun c => c != '?')).asString)

/-- The e-mail text recovered from the re-parsed page of
`mayor_scraper.py` (lines 122–139): below the first `Електронна поща`
label, prefer a following `mailto:` anchor, then a following text node
with an `email_re` match (the whole stripped text node), then a following
sibling text node with a match. -/
def emailTextOf (docAfter : Node) : String :=
  match findLabel (fun s => !s.isEmpty && strContains s "Електронна поща") docAfter with
  | none => ""
  | some info =>
      let stream := afterStream info
      match stream.findSome? mailtoHrefOf with
      | some h => mailtoAddrOfHref h
      | none =>
          match stream.findSome? textWithEmail with
          | some s => pyStrip s
          | none =>
              let sibs := match info.ancs.head? with
                | some a => a.sibsAfter
                | none => []
              match sibs.findSome? textWithEmail with
              | some s => pyStrip s
              | none => ""

/-- The mayor name recovered from the re-parsed page of
`mayor_scraper.py` (lines 142–148): the text of the `td` cell following
the `td` ancestor of the first `Кмет на община` text node. -/
def mayorNameOf (docAfter : Node) : String :=
  match findLabel (fun s => !s.isEmpty && strContains s "Кмет на община") docAfter with
  | none => ""
  | some info =>
      match info.ancs.find? (fun a => isTagNamed "td" a.node) with
      | none => ""
      | some tdAnc =>
          match tdAnc.sibsAfter.find? (isTagNamed "td") with
          | some nxt => getText "" true nxt
          | none => ""

namespace MayorScraper

/-- `extract_mayor_from_municipality` of `mayor_scraper.py` (lines
78–153): municipality from the first `h1` of the initially parsed page,
e-mail text and mayor name from the re-parsed page; the e-mail list is a
singleton when an e-mail text was found and empty otherwise. -/
def extract_mayor_from_municipality (docBefore docAfter : Node) (url : String) :
    ExtractionResult :=
  let municipality := match (descTags docBefore).find? (isTagNamed "h1") with
    | some h => getText "" true h
    | none => ""
  let emailText := emailTextOf docAfter
  { municipality := municipality
    mayor := mayorNameOf docAfter
    emails := if emailText.isEmpty then [] else [emailText]
    url := url }

end MayorScraper

/-! ## `scraper1.py`: the listing-page link collector -/

/-- `BASE` (`scraper1.py` line 28). -/
def BASE : String := "https://iisda.government.bg"

/-- `urljoin(BASE, href)` restricted to the reference shapes that occur on
the site: an absolute URL is kept, a scheme-relative reference inherits
`https:`, a root-relative reference is appended to the base origin, and
any other relative reference is resolved against the base origin's root
(the base has an empty path).  Dot-segments, queries and fragments are not
normalized. -/
def urljoinBase (href : String) : String :=
  if strStarts href "http://" || strStarts href "https://" then href
  else if strStarts href "//" then "https:" ++ href
  else if strStarts href "/" then BASE ++ href
  else BASE ++ "/" ++ href

/-- One listing link: the anchor's visible text and the absolutized URL
(the `(text, full)` tuples of both scripts). -/
structure MLink where
  txt : String
  url : String
deriving DecidableEq

/-- All `(stripped text, href)` pairs of anchors that carry an href, in
document order (`soup.find_all("a", href=True)` with
`(a.get_text() or "").strip()`). -/
def anchorTexts (doc : Node) : List (String × String) :=
  (descTags doc).filterMap (fun n =>
    if isTagNamed "a" n then
      match attrOf "href" n with
      | some h => some (pyStrip (getText "" false n), h)
      | none => none
    else none)

/-- The selection heuristic of `collect_municipality_links_from_page`
(`scraper1.py` line 69): the visible text contains
`"Общинска администрация"`, or its lowercase form contains the lowercase
marker. -/
def qualifiesMunicipal (text : String) : Bool :=
  strContains text "Общинска администрация" ||
    strContains (lowerStr text) "общинска администрация"

/-- The qualifying links of one listing page, before deduplication: each
qualifying anchor yields its text and absolutized URL, in document
order. -/
def qualifiedLinks (doc : Node) : List MLink :=
  (anchorTexts doc).filterMap (fun p =>
    if qualifiesMunicipal p.fst then some ⟨p.fst, urljoinBase p.snd⟩ else none)

/-- The seen-set deduplication pass shared by
`collect_municipality_links_from_page` (lines 76–81) and the defensive
second pass of `main` (lines 248–253): keep the first link of each URL,
in order. -/
def dedupGo (seen : List String) : List MLink → List MLink
  | [] => []
  | l :: rest =>
      if seen.contains l.url then dedupGo seen rest
      else l :: dedupGo (l.url :: seen) rest

/-- Deduplicate a link list by URL, keeping first occurrences in order. -/
def dedupByUrl (ls : List MLink) : List MLink := dedupGo [] ls

/-- `collect_municipality_links_from_page` (`scraper1.py` lines 58–82):
qualifying anchors of the current page, absolutized and deduplicated by
URL within the call. -/
def collect_municipality_links_from_page (doc : Node) : List MLink :=
  dedupByUrl (qualifiedLinks doc)

/-! ## `scraper1.py` `main`: pagination, second dedup pass, extraction
loop, CSV -/

/-- Append a link to the accumulator unless its URL is already present:
one step of the `if url not in existing` accumulation of `main` (lines
228–234). -/
def addLink (acc : List MLink) (l : MLink) : List MLink :=
  if acc.any (fun m => m.url == l.url) then acc else acc ++ [l]

/-- Append every new-URL link of one page to the accumulator. -/
def addNewLinks (acc : List MLink) (ls : List MLink) : List MLink :=
  ls.foldl addLink acc

/-- The pagination loop of `main` (`scraper1.py` lines 217–244), from the
current page number: while the page number does not exceed the cap,
collect the current listing page into the accumulator, then try to click
the `Следваща` control; a failed find-or-click ends the loop normally.
`pageDocs n` is the document the listing shows while on page `n`;
`canNext n` tells whether the next-page control was found and clicked
there.  Returns the number of pages collected and the final accumulator.
The budget argument equals `cap + 1 - page` at every call (the number of
loop iterations still allowed), which makes the recursion structural; when
the cap is already exceeded it is 0 and the guard returns immediately. -/
def paginateGo (pageDocs : Nat → Node) (canNext : Nat → Bool) (cap : Nat) :
    Nat → Nat → List MLink → Nat × List MLink
  | 0, _, acc => (0, acc)
  | budget + 1, page, acc =>
      if cap < page then (0, acc)
      else
        let acc2 := addNewLinks acc (collect_municipality_links_from_page (pageDocs page))
        if canNext page then
          let r := paginateGo pageDocs canNext cap budget (page + 1) acc2
          (r.fst + 1, r.snd)
        else (1, acc2)

/-- The whole pagination phase: start on page 1 with an empty
accumulator (so the budget is `cap + 1 - 1 = cap`). -/
def paginate (pageDocs : Nat → Node) (canNext : Nat → Bool) (cap : Nat) :
    Nat × List MLink :=
  paginateGo pageDocs canNext cap cap 1 []

/-- The row one successfully fetched link contributes (`scraper1.py`
lines 262–267): the extractor's result, with the link's display text
substituted when the extracted municipality name is empty. -/
def substRow (l : MLink) (doc : Node) : ExtractionResult :=
  let info := extract_mayor_from_municipality doc l.url
  if info.municipality.isEmpty then { info with municipality := l.txt } else info

/-- The per-link extraction loop of `main` (`scraper1.py` lines 256–271):
for each link, run the detail extractor; `fetch url = none` models an
exception escaping `extract_mayor_from_municipality` for that page — the
`except` branch only prints, so the link yields no row; on success, an
empty municipality is replaced by the link's display text. -/
def runExtractionLoop (fetch : String → Option Node) : List MLink → List ExtractionResult
  | [] => []
  | l :: rest =>
      match fetch l.url with
      | some doc => substRow l doc :: runExtractionLoop fetch rest
      | none => runExtractionLoop fetch rest

/-- The CSV header row (`scraper1.py` line 277). -/
def csvHeader : List String := ["municipality", "mayor_name", "emails", "source_url"]

/-- One CSV data row (`scraper1.py` line 279): municipality, mayor,
e-mails joined with `"; "`, source URL. -/
def csvRow (r : ExtractionResult) : List String :=
  [r.municipality, r.mayor, String.intercalate "; " r.emails, r.url]

/-- The observable outcome of one run of `main` (`scraper1.py` lines
205–287): whether the start URL was navigated to (it always is — there is
no configuration validation before `driver.get(START_URL)`), the number of
listing pages collected, the deduplicated link list, and the CSV rows
written. -/
structure MainResult where
  navigatedStart : Bool
  pagesVisited : Nat
  uniqueLinks : List MLink
  csv : List (List String)
deriving DecidableEq

/-- `main` of `scraper1.py` with the browser effects supplied as
parameters and the safety cap `maxPageIter` (the constant
`MAX_PAGE_ITER = 20` in the source) made explicit: navigate to the start
URL, paginate, deduplicate the accumulated links a second time, run the
extraction loop, and write the CSV. -/
def runMain (pageDocs : Nat → Node) (canNext : Nat → Bool)
    (fetch : String → Option Node) (maxPageIter : Nat) : MainResult :=
  let walked := paginate pageDocs canNext maxPageIter
  let uniq := dedupByUrl walked.snd
  let results := runExtractionLoop fetch uniq
  { navigatedStart := true
    pagesVisited := walked.fst
    uniqueLinks := uniq
    csv := csvHeader :: results.map csvRow }

/-! ## Concrete page fixtures

Small parsed documents used to instantiate the claims at concrete
inputs. -/

/-- A detail page with no official-title text at all and two `mailto:`
anchors, the second of which carries a payload that only prefix-matches
the e-mail pattern. -/
def docMailtoFixture : Node :=
  Node.elem "[document]" [] [
    Node.elem "html" [] [
      Node.elem "body" [] [
        Node.elem "a" [("href", "mailto:z@b.cd")] [Node.text "пишете"],
        Node.elem "a" [("href", "mailto:a@b.cd;")] [Node.text "още"]]]]

/-- A detail page on which strategy 1 finds an e-mail inside the official
title's container, while a different `mailto:` anchor and a different
plain-text address occur elsewhere on the page. -/
def docStrategy1Fixture : Node :=
  Node.elem "[document]" [] [
    Node.elem "html" [] [
      Node.elem "body" [] [
        Node.elem "h1" [] [Node.text "Община Тест"],
        Node.elem "table" [] [
          Node.elem "tr" [] [
            Node.elem "td" [] [Node.text "Кмет на община",
              Node.elem "span" [] [Node.text "mayor@x.bg"]],
            Node.elem "td" [] [Node.text "Иван Петров"]]],
        Node.elem "a" [("href", "mailto:decoy@y.bg")] [Node.text "друг"],
        Node.text "стр decoy2@z.bg"]]]

/-- A detail page with no official-title structure, no label, no
`mailto:` link and no text matching the e-mail pattern. -/
def docBareFixture : Node :=
  Node.elem "[document]" [] [
    Node.elem "html" [] [
      Node.elem "body" [] [
        Node.elem "h1" [] [Node.text "Община Празна"],
        Node.elem "p" [] [Node.text "Няма данни на тази страница."],
        Node.elem "a" [("href", "/ras/other")] [Node.text "връзка"]]]]

/-- A listing page with two qualifying municipality anchors (one URL
duplicated) and unrelated anchors around them. -/
def docListingFixture : Node :=
  Node.elem "[document]" [] [
    Node.elem "html" [] [
      Node.elem "body" [] [
        Node.elem "a" [("href", "/home")] [Node.text "Начало"],
        Node.elem "a" [("href", "/ras/m1")] [Node.text "Общинска администрация - Първа"],
        Node.elem "a" [("href", "/ras/m2")] [Node.text "Общинска администрация - Втора"],
        Node.elem "a" [("href", "/ras/m1")] [Node.text "Общинска администрация - Първа"],
        Node.elem "a" [("href", "/contact")] [Node.text "Контакти"]]]]

/-- The same listing as `docListingFixture` with the unrelated anchors
reordered and a new unrelated anchor inserted; the qualifying anchors are
unchanged. -/
def docListingFixture2 : Node :=
  Node.elem "[document]" [] [
    Node.elem "html" [] [
      Node.elem "body" [] [
        Node.elem "a" [("href", "/contact")] [Node.text "Контакти"],
        Node.elem "a" [("href", "/ras/m1")] [Node.text "Общинска администрация - Първа"],
        Node.elem "a" [("href", "/help")] [Node.text "Помощ"],
        Node.elem "a" [("href", "/ras/m2")] [Node.text "Общинска администрация - Втора"],
        Node.elem "a" [("href", "/ras/m1")] [Node.text "Общинска администрация - Първа"],
        Node.elem "a" [("href", "/home")] [Node.text "Начало"]]]]

/-! # Theorems

Helper lemmas first, then one theorem per specification claim (with its
witness or counterexample). -/

/-! ## List run lemmas -/

theorem takeWhile_append_all {α : Type} {p : α → Bool} {u v : List α}
    (h : ∀ c ∈ u, p c = true) : (u ++ v).takeWhile p = u ++ v.takeWhile p := by
  induction u with
  | nil => simp
  | cons c u ih =>
      simp only [List.cons_append, List.takeWhile_cons, h c (List.mem_cons_self c u), if_true]
      rw [ih (fun x hx => h x (List.mem_cons_of_mem c hx))]

theorem dropWhile_append_all {α : Type} {p : α → Bool} {u v : List α}
    (h : ∀ c ∈ u, p c = true) : (u ++ v).dropWhile p = v.dropWhile p := by
  induction u with
  | nil => simp
  | cons c u ih =>
      simp only [List.cons_append, List.dropWhile_cons, h c (List.mem_cons_self c u), if_true]
      exact ih (fun x hx => h x (List.mem_cons_of_mem c hx))

theorem takeWhile_cons_false {α : Type} {p : α → Bool} {c : α} {v : List α}
    (h : p c = false) : (c :: v).takeWhile p = [] := by
  simp [List.takeWhile_cons, h]

theorem dropWhile_cons_false {α : Type} {p : α → Bool} {c : α} {v : List α}
    (h : p c = false) : (c :: v).dropWhile p = c :: v := by
  simp [List.dropWhile_cons, h]

theorem takeWhile_eq_self_of_all {α : Type} {p : α → Bool} {u : List α}
    (h : ∀ c ∈ u, p c = true) : u.takeWhile p = u := by
  have h2 : (u ++ ([] : List α)).takeWhile p = u ++ ([] : List α).takeWhile p :=
    takeWhile_append_all h
  simpa using h2

/-! ## Specification of the match attempt -/

theorem findDotSplit_spec {s2 : List Char} {n : Nat} {d letters rest : List Char}
    (h : findDotSplit s2 n = some (d, letters, rest)) :
    s2 = d ++ '.' :: (letters ++ rest) ∧ 1 ≤ d.length ∧ d.length ≤ n ∧
      2 ≤ letters.length ∧ (∀ c ∈ letters, isAsciiLetter c = true) := by
  induction n with
  | zero => simp [findDotSplit] at h
  | succ k ih =>
      rw [findDotSplit] at h
      split at h
      case _ rest0 heq =>
        split at h
        case isTrue hlen =>
          obtain ⟨hd, hl, hr⟩ := by
            simpa using h
          subst hd hl hr
          have hlen2 : k + 1 < s2.length := by
            have := congrArg List.length heq
            simp at this
            omega
          refine ⟨?_, ?_, ?_, hlen, ?_⟩
          · conv_lhs => rw [← List.take_append_drop (k + 1) s2]
            rw [heq, List.takeWhile_append_dropWhile]
          · simp only [List.length_take]
            omega
          · simp only [List.length_take]
            omega
          · exact fun c hc => List.mem_takeWhile_imp hc
        case isFalse =>
          obtain ⟨h1, h2, h3, h4, h5⟩ := ih h
          exact ⟨h1, h2, by omega, h4, h5⟩
      case _ =>
        obtain ⟨h1, h2, h3, h4, h5⟩ := ih h
        exact ⟨h1, h2, by omega, h4, h5⟩

theorem matchAt_some_spec {s m r : List Char} (h : matchAt s = some (m, r)) :
    ∃ l d a, EmailTokenParts l d a ∧ m = l ++ '@' :: (d ++ '.' :: a) ∧ s = m ++ r := by
  unfold matchAt at h
  split at h
  next s2 hdrop =>
    simp only [] at h
    split at h
    next hne => simp at h
    next hne =>
      split at h
      next hdom => simp at h
      next hdom =>
        split at h
        next d letters rest0 hsplit =>
          obtain ⟨hm, hr⟩ := by simpa using h
          obtain ⟨hs2, hd1, hdn, hl2, hla⟩ := findDotSplit_spec hsplit
          refine ⟨s.takeWhile isLocalChar, d, letters, ⟨?_, ?_, ?_, ?_, hl2, hla⟩, hm.symm, ?_⟩
          · simpa [List.isEmpty_iff] using hne
          · exact fun c hc => List.mem_takeWhile_imp hc
          · intro hdnil
            rw [hdnil] at hd1
            simp at hd1
          · -- every character of d is a domain character
            intro c hc
            have hdpre : s2.take d.length = d := by
              rw [hs2]
              exact List.take_left d ('.' :: (letters ++ rest0))
            have h1 : d = (s2.takeWhile isDomainChar).take d.length := by
              conv_lhs => rw [← hdpre]
              conv_rhs => rw [← @List.take_append_of_le_length _
                (List.takeWhile isDomainChar s2) (List.dropWhile isDomainChar s2)
                d.length hdn,
                List.takeWhile_append_dropWhile]
            rw [h1] at hc
            exact List.mem_takeWhile_imp (List.mem_of_mem_take hc)
          · rw [← hr, ← hm]
            conv_lhs => rw [← List.takeWhile_append_dropWhile isLocalChar s]
            rw [hdrop, hs2]
            simp
        next => simp at h
  next hfall =>
    simp only [] at h
    split at h <;> simp at h

/-! ## Character-class inclusions -/

theorem asciiLetter_isDomain {c : Char} (h : isAsciiLetter c = true) :
    isDomainChar c = true := by
  simp [isDomainChar, h]

theorem domain_isLocal {c : Char} (h : isDomainChar c = true) : isLocalChar c = true := by
  simp only [isDomainChar, Bool.or_eq_true] at h
  simp only [isLocalChar, Bool.or_eq_true]
  tauto

/-! ## Matching a well-formed token -/

theorem findDotSplit_at_dot {d a post : List Char}
    (hd0 : d ≠ []) (ha2 : 2 ≤ a.length) (haA : ∀ c ∈ a, isAsciiLetter c = true)
    (hpost : ∀ c, post.head? = some c → isDomainChar c = false) :
    findDotSplit (d ++ '.' :: (a ++ post)) d.length = some (d, a, post) := by
  have hpostA : ∀ c, post.head? = some c → isAsciiLetter c = false := by
    intro c hc
    cases hA : isAsciiLetter c with
    | false => rfl
    | true => exact absurd (asciiLetter_isDomain hA) (by simp [hpost c hc])
  have htw : (a ++ post).takeWhile isAsciiLetter = a := by
    rw [takeWhile_append_all haA]
    cases hpv : post with
    | nil => simp
    | cons p ps =>
        rw [takeWhile_cons_false (hpostA p (by rw [hpv]; rfl))]
        simp
  have hdw : (a ++ post).dropWhile isAsciiLetter = post := by
    rw [dropWhile_append_all haA]
    cases hpv : post with
    | nil => simp
    | cons p ps => rw [dropWhile_cons_false (hpostA p (by rw [hpv]; rfl))]
  obtain ⟨k, hk⟩ : ∃ k, d.length = k + 1 := by
    cases d with
    | nil => exact absurd rfl hd0
    | cons x xs => exact ⟨xs.length, rfl⟩
  rw [hk, findDotSplit]
  have hdrop : (d ++ '.' :: (a ++ post)).drop (k + 1) = '.' :: (a ++ post) := by
    rw [← hk]
    exact List.drop_left d _
  have htake : (d ++ '.' :: (a ++ post)).take (k + 1) = d := by
    rw [← hk]
    exact List.take_left d _
  rw [hdrop]
  simp only []
  rw [htw, hdw, htake]
  simp [ha2]

theorem findDotSplit_step {d a post : List Char} (i : Nat)
    (haA : ∀ c ∈ a, isAsciiLetter c = true)
    (hpost : ∀ c, post.head? = some c → isDomainChar c = false)
    (hi : i ≤ a.length + 1) :
    findDotSplit (d ++ '.' :: (a ++ post)) (d.length + i) =
      findDotSplit (d ++ '.' :: (a ++ post)) d.length := by
  induction i with
  | zero => rfl
  | succ j ih =>
      have hdrop : (d ++ '.' :: (a ++ post)).drop (d.length + j + 1) = (a ++ post).drop j := by
        rw [show d.length + j + 1 = d.length + (j + 1) by omega, List.drop_append,
          List.drop_succ_cons]
      rw [show d.length + (j + 1) = (d.length + j) + 1 by omega, findDotSplit]
      rw [hdrop]
      split
      next rest heq =>
        exfalso
        have hhead : ((a ++ post).drop j).head? = some '.' := by rw [heq]; rfl
        rw [List.head?_drop, List.getElem?_append] at hhead
        rcases Nat.lt_or_ge j a.length with hlt | hge
        · rw [if_pos hlt, List.getElem?_eq_getElem hlt] at hhead
          have hj : a[j] = '.' := by simpa using hhead
          have h2 := haA a[j] (List.getElem_mem hlt)
          rw [hj] at h2
          exact absurd h2 (by decide)
        · have hj : j = a.length := by omega
          subst hj
          rw [if_neg (by omega)] at hhead
          simp only [Nat.sub_self] at hhead
          have hp : post.head? = some '.' := by
            cases post with
            | nil => simp at hhead
            | cons p ps => simpa using hhead
          exact absurd (hpost '.' hp) (by decide)
      next =>
        exact ih (by omega)

theorem findDotSplit_token {d a post : List Char}
    (hd0 : d ≠ []) (ha2 : 2 ≤ a.length) (haA : ∀ c ∈ a, isAsciiLetter c = true)
    (hpost : ∀ c, post.head? = some c → isDomainChar c = false) :
    findDotSplit (d ++ '.' :: (a ++ post)) (d.length + (a.length + 1)) =
      some (d, a, post) := by
  rw [findDotSplit_step (a.length + 1) haA hpost (le_refl _),
    findDotSplit_at_dot hd0 ha2 haA hpost]

/-- When a well-formed token sits at the start of the input and the first
character after it (if any) is outside the domain class, the match attempt
returns exactly the token. -/
theorem matchAt_token {l d a post : List Char}
    (hp : EmailTokenParts l d a)
    (hpost : ∀ c, post.head? = some c → isDomainChar c = false) :
    matchAt (l ++ '@' :: (d ++ '.' :: (a ++ post))) =
      some (l ++ '@' :: (d ++ '.' :: a), post) := by
  obtain ⟨hl0, hlL, hd0, hdD, ha2, haA⟩ := hp
  have hat_loc : isLocalChar '@' = false := by decide
  have hat_dom : isDomainChar '@' = false := by decide
  have h1 : (l ++ '@' :: (d ++ '.' :: (a ++ post))).takeWhile isLocalChar = l := by
    rw [takeWhile_append_all hlL, takeWhile_cons_false hat_loc, List.append_nil]
  have h2 : (l ++ '@' :: (d ++ '.' :: (a ++ post))).dropWhile isLocalChar =
      '@' :: (d ++ '.' :: (a ++ post)) := by
    rw [dropWhile_append_all hlL, dropWhile_cons_false hat_loc]
  have hpostA : ∀ c, post.head? = some c → isAsciiLetter c = false := by
    intro c hc
    cases hA : isAsciiLetter c with
    | false => rfl
    | true => exact absurd (asciiLetter_isDomain hA) (by simp [hpost c hc])
  have hdom : (d ++ '.' :: (a ++ post)).takeWhile isDomainChar = d ++ '.' :: a := by
    rw [takeWhile_append_all hdD, List.takeWhile_cons]
    simp only [show isDomainChar '.' = true from rfl, if_true]
    rw [takeWhile_append_all (fun c hc => asciiLetter_isDomain (haA c hc))]
    cases hpv : post with
    | nil => simp
    | cons p ps =>
        rw [takeWhile_cons_false (hpost p (by rw [hpv]; rfl))]
        simp
  have hdomlen : (d ++ '.' :: a).length = d.length + (a.length + 1) := by
    simp [List.length_append]
  unfold matchAt
  rw [h1, h2]
  simp only []
  rw [if_neg (by simp [List.isEmpty_iff, hl0])]
  rw [hdom]
  rw [if_neg (by simp [List.isEmpty_iff])]
  rw [hdomlen, findDotSplit_token hd0 ha2 haA hpost]

/-! ## Failed match attempts -/

/-- A match attempt fails on any input that starts with a non-empty block
that contains no `@`, ends in a non-local character, and only then
continues arbitrarily. -/
theorem matchAt_none_junk {z w : List Char} (hz : z ≠ [])
    (hat : ∀ c ∈ z, c ≠ '@')
    (hlast : ∀ c, z.getLast? = some c → isLocalChar c = false) :
    matchAt (z ++ w) = none := by
  have hlast' : isLocalChar (z.getLast hz) = false :=
    hlast _ (List.getLast?_eq_getLast z hz)
  have hdz : z.dropWhile isLocalChar ≠ [] := by
    intro hnil
    have := List.dropWhile_eq_nil_iff.mp hnil (z.getLast hz) (List.getLast_mem hz)
    rw [hlast'] at this
    exact absurd this (by simp)
  obtain ⟨c0, zs, hdw⟩ := List.exists_cons_of_ne_nil hdz
  have hc0 : c0 ≠ '@' := by
    apply hat
    have : c0 ∈ z.dropWhile isLocalChar := by
      rw [hdw]
      exact List.mem_cons_self _ _
    exact (List.dropWhile_sublist _).subset this
  have hdwa : (z ++ w).dropWhile isLocalChar = c0 :: (zs ++ w) := by
    rw [List.dropWhile_append, if_neg (by simp [hdw]), hdw]
    simp
  unfold matchAt
  simp only []
  by_cases hemp : ((z ++ w).takeWhile isLocalChar).isEmpty = true
  · rw [if_pos hemp]
  · rw [if_neg hemp]
    split
    next s2 heq =>
      rw [hdwa] at heq
      injection heq with h1 _
      exact absurd h1 hc0
    next => rfl

/-! ## The findall scan -/

theorem scanGo_budget {b1 b2 : Nat} : ∀ {s : List Char}, s.length ≤ b1 → s.length ≤ b2 →
    scanGo b1 s = scanGo b2 s := by
  induction b1 generalizing b2 with
  | zero =>
      intro s h1 _
      have : s = [] := List.length_eq_zero.mp (Nat.le_zero.mp h1)
      subst this
      cases b2 <;> rfl
  | succ b ih =>
      intro s h1 h2
      cases s with
      | nil => cases b2 <;> rfl
      | cons c rest =>
          cases b2 with
          | zero => simp at h2
          | succ b2' =>
              rw [scanGo, scanGo]
              cases hm : matchAt (c :: rest) with
              | none =>
                  simp only []
                  have hr : rest.length ≤ b := by simp at h1; omega
                  have hr2 : rest.length ≤ b2' := by simp at h2; omega
                  exact ih hr hr2
              | some p =>
                  obtain ⟨m, r⟩ := p
                  simp only []
                  have hd : (rest.drop (m.length - 1)).length ≤ b := by
                    simp only [List.length_drop]
                    simp at h1
                    omega
                  have hd2 : (rest.drop (m.length - 1)).length ≤ b2' := by
                    simp only [List.length_drop]
                    simp at h2
                    omega
                  rw [ih hd hd2]

theorem scanEmails_cons_none {c : Char} {rest : List Char}
    (h : matchAt (c :: rest) = none) : scanEmails (c :: rest) = scanEmails rest := by
  show scanGo (rest.length + 1) (c :: rest) = scanEmails rest
  rw [scanGo]
  simp only [h]
  rfl

theorem scanEmails_cons_some {c : Char} {rest m r : List Char}
    (h : matchAt (c :: rest) = some (m, r)) :
    scanEmails (c :: rest) = m :: scanEmails (rest.drop (m.length - 1)) := by
  show scanGo (rest.length + 1) (c :: rest) = _
  rw [scanGo]
  simp only [h]
  congr 1
  exact scanGo_budget (by simp only [List.length_drop]; omega) (le_refl _)

/-- Scanning a well-formed token followed by a remainder whose head is
outside the domain class emits the token and continues with the
remainder. -/
theorem scanEmails_token {l d a post : List Char}
    (hp : EmailTokenParts l d a)
    (hpost : ∀ c, post.head? = some c → isDomainChar c = false) :
    scanEmails (l ++ '@' :: (d ++ '.' :: (a ++ post))) =
      (l ++ '@' :: (d ++ '.' :: a)) :: scanEmails post := by
  obtain ⟨c0, l', rfl⟩ := List.exists_cons_of_ne_nil hp.1
  have hm := matchAt_token hp hpost
  rw [List.cons_append] at hm ⊢
  rw [scanEmails_cons_some hm]
  have hlen : (c0 :: l' ++ '@' :: (d ++ '.' :: a)).length - 1 =
      (l' ++ '@' :: (d ++ '.' :: a)).length := by simp
  rw [hlen]
  have : l' ++ '@' :: (d ++ '.' :: (a ++ post)) =
      (l' ++ '@' :: (d ++ '.' :: a)) ++ post := by simp
  rw [this, List.drop_left]

/-- Scanning skips a leading block that contains no `@` and ends in a
non-local character. -/
theorem scanEmails_skip {z w : List Char}
    (hat : ∀ c ∈ z, c ≠ '@')
    (hlast : ∀ c, z.getLast? = some c → isLocalChar c = false) :
    scanEmails (z ++ w) = scanEmails w := by
  induction z with
  | nil => simp
  | cons c z' ih =>
      have hm : matchAt ((c :: z') ++ w) = none :=
        matchAt_none_junk (by simp) hat hlast
      rw [List.cons_append] at hm
      rw [List.cons_append, scanEmails_cons_none hm]
      cases hz' : z' with
      | nil => simp
      | cons c1 z1 =>
          rw [← hz']
          apply ih
          · exact fun x hx => hat x (List.mem_cons_of_mem c hx)
          · intro x hx
            apply hlast
            rw [hz'] at hx ⊢
            rw [List.getLast?_cons_cons]
            exact hx

/-- Every token the scan emits is a well-formed e-mail token and occurs in
the input. -/
theorem scanGo_mem_spec : ∀ {b : Nat} {s m : List Char}, m ∈ scanGo b s →
    IsEmailToken m ∧ ∃ u v, s = u ++ m ++ v := by
  intro b
  induction b with
  | zero =>
      intro s m hm
      simp [scanGo] at hm
  | succ b ih =>
      intro s m hm
      cases s with
      | nil => simp [scanGo] at hm
      | cons c rest =>
          rw [scanGo] at hm
          cases hma : matchAt (c :: rest) with
          | none =>
              rw [hma] at hm
              simp only [] at hm
              obtain ⟨htok, u, v, huv⟩ := ih hm
              exact ⟨htok, c :: u, v, by simp [huv]⟩
          | some p =>
              obtain ⟨mt, r⟩ := p
              rw [hma] at hm
              simp only [] at hm
              rcases List.mem_cons.mp hm with rfl | hm'
              · obtain ⟨l, d, a, hparts, hmeq, hsum⟩ := matchAt_some_spec hma
                refine ⟨⟨l, d, a, hparts, hmeq⟩, [], r, by simpa using hsum⟩
              · obtain ⟨htok, u, v, huv⟩ := ih hm'
                refine ⟨htok, c :: (rest.take (mt.length - 1) ++ u), v, ?_⟩
                have hr : rest = rest.take (mt.length - 1) ++ (u ++ m ++ v) := by
                  conv_lhs => rw [← List.take_append_drop (mt.length - 1) rest]
                  rw [huv]
                conv_lhs => rw [hr]
                simp

theorem scanEmails_mem_spec {s m : List Char} (h : m ∈ scanEmails s) :
    IsEmailToken m ∧ ∃ u v, s = u ++ m ++ v :=
  scanGo_mem_spec h

/-- When no well-formed token occurs anywhere in the input, the scan finds
nothing. -/
theorem scanEmails_eq_nil_of_no_token {s : List Char}
    (h : ∀ u t v, IsEmailToken t → s ≠ u ++ t ++ v) : scanEmails s = [] := by
  cases hs : scanEmails s with
  | nil => rfl
  | cons m rest =>
      have hm : m ∈ scanEmails s := by
        rw [hs]
        exact List.mem_cons_self _ _
      obtain ⟨htok, u, v, huv⟩ := scanEmails_mem_spec hm
      exact absurd huv (h u m v htok)

/-! ## The sorting order -/

theorem strLtB_trichotomy (u : List Char) : ∀ v, u = v ∨ strLtB u v = true ∨ strLtB v u = true := by
  induction u with
  | nil =>
      intro v
      cases v with
      | nil => exact Or.inl rfl
      | cons d ds => exact Or.inr (Or.inl rfl)
  | cons c cs ih =>
      intro v
      cases v with
      | nil => exact Or.inr (Or.inr rfl)
      | cons d ds =>
          rcases Nat.lt_trichotomy c.toNat d.toNat with h | h | h
          · exact Or.inr (Or.inl (by simp [strLtB, h]))
          · have hcd : c = d := Char.ext (UInt32.ext h)
            subst hcd
            rcases ih ds with h2 | h2 | h2
            · exact Or.inl (by rw [h2])
            · exact Or.inr (Or.inl (by simp [strLtB, h2]))
            · exact Or.inr (Or.inr (by simp [strLtB, h2]))
          · exact Or.inr (Or.inr (by simp [strLtB, h]))

theorem strLtB_trans {u : List Char} : ∀ {v w : List Char},
    strLtB u v = true → strLtB v w = true → strLtB u w = true := by
  induction u with
  | nil =>
      intro v w huv hvw
      cases v with
      | nil => simp [strLtB] at huv
      | cons d ds =>
          cases w with
          | nil => simp [strLtB] at hvw
          | cons e es => rfl
  | cons c cs ih =>
      intro v w huv hvw
      cases v with
      | nil => simp [strLtB] at huv
      | cons d ds =>
          cases w with
          | nil => simp [strLtB] at hvw
          | cons e es =>
              simp only [strLtB, Bool.or_eq_true, Bool.and_eq_true, decide_eq_true_eq,
                beq_iff_eq] at huv hvw ⊢
              rcases huv with h1 | ⟨hcd, hrec1⟩
              · rcases hvw with h2 | ⟨hde, hrec2⟩
                · exact Or.inl (Nat.lt_trans h1 h2)
                · subst hde
                  exact Or.inl h1
              · subst hcd
                rcases hvw with h2 | ⟨hde, hrec2⟩
                · exact Or.inl h2
                · subst hde
                  exact Or.inr ⟨rfl, ih hrec1 hrec2⟩

theorem pyLe_total (a b : String) : pyLe a b = true ∨ pyLe b a = true := by
  unfold pyLe
  rcases strLtB_trichotomy a.data b.data with h | h | h
  · left
    have : a = b := String.ext h
    subst this
    simp
  · left
    simp [h]
  · right
    simp [h]

theorem pyLe_trans {a b c : String} (h1 : pyLe a b = true) (h2 : pyLe b c = true) :
    pyLe a c = true := by
  unfold pyLe at h1 h2 ⊢
  simp only [Bool.or_eq_true, beq_iff_eq] at h1 h2 ⊢
  rcases h1 with rfl | h1
  · exact h2
  · rcases h2 with rfl | h2
    · exact Or.inr h1
    · exact Or.inr (strLtB_trans h1 h2)

theorem strLtB_lt {u : List Char} : ∀ {v : List Char},
    strLtB u v = true → List.Lex (· < ·) u v := by
  induction u with
  | nil =>
      intro v h
      cases v with
      | nil => simp [strLtB] at h
      | cons d ds => exact List.Lex.nil
  | cons c cs ih =>
      intro v h
      cases v with
      | nil => simp [strLtB] at h
      | cons d ds =>
          simp only [strLtB, Bool.or_eq_true, Bool.and_eq_true, decide_eq_true_eq,
            beq_iff_eq] at h
          rcases h with h | ⟨rfl, hrec⟩
          · exact List.Lex.rel h
          · exact List.Lex.cons (ih hrec)

theorem pyLe_le {a b : String} (h : pyLe a b = true) : a ≤ b := by
  unfold pyLe at h
  simp only [Bool.or_eq_true, beq_iff_eq] at h
  rcases h with rfl | h
  · exact le_refl a
  · have hlt : a.toList < b.toList := strLtB_lt h
    exact le_of_lt (String.lt_iff_toList_lt.mpr hlt)

/-! ## `sortedUnique` -/

theorem mem_sortedUnique {l : List String} {x : String} : x ∈ sortedUnique l ↔ x ∈ l := by
  unfold sortedUnique
  rw [(List.perm_insertionSort _ _).mem_iff, List.mem_dedup]

theorem nodup_sortedUnique (l : List String) : (sortedUnique l).Nodup :=
  (List.perm_insertionSort _ _).nodup_iff.mpr (List.nodup_dedup l)

theorem sorted_sortedUnique (l : List String) :
    List.Sorted (fun a b => pyLe a b = true) (sortedUnique l) := by
  haveI : IsTotal String (fun a b => pyLe a b = true) := ⟨pyLe_total⟩
  haveI : IsTrans String (fun a b => pyLe a b = true) := ⟨fun _ _ _ => pyLe_trans⟩
  exact List.sorted_insertionSort _ _

theorem sorted_le_sortedUnique (l : List String) : List.Sorted (· ≤ ·) (sortedUnique l) :=
  List.Pairwise.imp (fun h => pyLe_le h) (sorted_sortedUnique l)

/-! ## Tokens and the match attempt -/

theorem matchAt_of_token {s : List Char} (h : IsEmailToken s) : matchAt s = some (s, []) := by
  obtain ⟨l, d, a, hp, rfl⟩ := h
  have h2 := @matchAt_token l d a [] hp (by intro c hc; simp at hc)
  simpa using h2

/-! ## Claim C5: the EmailFinder round-trip -/

/-- C5 (claim as stated is false; this is the counterexample): the string
`"xuser@a.bg"` embeds the well-formed token `"user@a.bg"`, yet
`find_emails_in_html` does not return that token — the greedy local-part
run extends the match to `"xuser@a.bg"`. -/
theorem C5_counterexample :
    IsEmailToken ("user@a.bg".data) ∧
    ("xuser@a.bg" : String).data = "x".data ++ "user@a.bg".data ∧
    "user@a.bg" ∉ find_emails_in_html "xuser@a.bg" ∧
    find_emails_in_html "xuser@a.bg" = ["xuser@a.bg"] := by
  refine ⟨⟨"user".data, "a".data, "bg".data, by unfold EmailTokenParts; decide, by decide⟩, by decide, ?_, ?_⟩
  · decide
  · decide

/-- C5 (amended): `find_emails_in_html` is pure and satisfies the
round-trip property with the boundary conditions the greedy scan forces:
(1) a string in which no well-formed token occurs yields the empty list;
(2) the result never contains duplicates (so an address repeated in the
input is returned exactly once); (3) every occurrence of a well-formed
token is returned exactly, provided the text before it contains no `@`
and does not end in a local-part character, and the text after it does
not begin with a domain character — in particular surrounding Cyrillic
text, whitespace or punctuation never prevents the match. -/
theorem C5_emailfinder_amended :
    (∀ s : String, (∀ u t v, IsEmailToken t → s.data ≠ u ++ t ++ v) →
      find_emails_in_html s = []) ∧
    (∀ s : String, (find_emails_in_html s).Nodup) ∧
    (∀ (s : String) (pre l d a post : List Char), EmailTokenParts l d a →
      s.data = pre ++ (l ++ '@' :: (d ++ '.' :: a)) ++ post →
      (∀ c ∈ pre, c ≠ '@') →
      (∀ c, pre.getLast? = some c → isLocalChar c = false) →
      (∀ c, post.head? = some c → isDomainChar c = false) →
      (l ++ '@' :: (d ++ '.' :: a)).asString ∈ find_emails_in_html s) := by
  refine ⟨?_, ?_, ?_⟩
  · intro s hno
    unfold find_emails_in_html
    rw [scanEmails_eq_nil_of_no_token hno]
    rfl
  · intro s
    exact nodup_sortedUnique _
  · intro s pre l d a post hp heq hat hlastloc hpost
    unfold find_emails_in_html
    rw [mem_sortedUnique]
    apply List.mem_map_of_mem
    have hassoc : s.data = pre ++ (l ++ '@' :: (d ++ '.' :: (a ++ post))) := by
      rw [heq]
      simp
    rw [hassoc]
    have htok : scanEmails (l ++ '@' :: (d ++ '.' :: (a ++ post))) =
        (l ++ '@' :: (d ++ '.' :: a)) :: scanEmails post :=
      scanEmails_token hp hpost
    cases pre with
    | nil =>
        rw [List.nil_append, htok]
        exact List.mem_cons_self _ _
    | cons c0 pre' =>
        rw [scanEmails_skip hat hlastloc, htok]
        exact List.mem_cons_self _ _

/-- Witness for the amended C5 at concrete inputs: a Cyrillic sentence
with no token yields `[]`; results are duplicate-free; a token surrounded
by Cyrillic text is returned exactly. -/
theorem C5_emailfinder_amended_witness :
    find_emails_in_html "без поща тук" = [] ∧
    (find_emails_in_html "пиши a@b.cd и a@b.cd").Nodup ∧
    "user@sub.domain.tld" ∈ find_emails_in_html "Кмет: user@sub.domain.tld след" := by
  refine ⟨?_, C5_emailfinder_amended.2.1 _, ?_⟩
  · apply C5_emailfinder_amended.1
    intro u t v htok heqs
    obtain ⟨l, d, a, _, rfl⟩ := htok
    have hat : '@' ∈ ("без поща тук" : String).data := by
      rw [heqs]
      simp
    exact absurd hat (by decide)
  · have h := C5_emailfinder_amended.2.2 "Кмет: user@sub.domain.tld след"
      "Кмет: ".data "user".data "sub.domain".data "tld".data " след".data
      (by unfold EmailTokenParts; decide) (by decide) (by decide) (by decide) (by decide)
    have he : ("user".data ++ '@' :: ("sub.domain".data ++ '.' :: "tld".data)).asString =
        "user@sub.domain.tld" := by decide
    rw [he] at h
    exact h

/-! ## Where the accumulated e-mails come from -/

theorem find_emails_token {h : String} {e : String} (he : e ∈ find_emails_in_html h) :
    IsEmailToken e.data := by
  unfold find_emails_in_html at he
  rw [mem_sortedUnique, List.mem_map] at he
  obtain ⟨m, hm, rfl⟩ := he
  exact (scanGo_mem_spec hm).1

theorem emailMatchStart_of_token {e : String} (h : IsEmailToken e.data) :
    emailMatchStart e = true := by
  unfold emailMatchStart
  rw [matchAt_of_token h]
  rfl

theorem token_chars {s : List Char} (h : IsEmailToken s) :
    ∀ c ∈ s, isLocalChar c = true ∨ c = '@' := by
  obtain ⟨l, d, a, ⟨_, hlL, _, hdD, _, haA⟩, rfl⟩ := h
  intro c hc
  simp only [List.mem_append, List.mem_cons] at hc
  rcases hc with hc | hc | hc | hc | hc
  · exact Or.inl (hlL c hc)
  · exact Or.inr hc
  · exact Or.inl (domain_isLocal (hdD c hc))
  · subst hc
    exact Or.inl (by decide)
  · exact Or.inl (domain_isLocal (asciiLetter_isDomain (haA c hc)))

theorem strategyLoop_fst_mem {ctxs : List TextCtx} {e : String}
    (h : e ∈ (strategyLoop ctxs).fst) :
    ∃ ctx ∈ ctxs, e ∈ find_emails_in_html (surroundingHtml ctx.parent) := by
  induction ctxs with
  | nil => simp [strategyLoop] at h
  | cons ctx rest ih =>
      rw [strategyLoop] at h
      simp only [] at h
      by_cases hc : (!(pyStrip (candidateOf ctx)).isEmpty &&
          decide ((pyStrip (candidateOf ctx)).length < 200)) = true
      · rw [if_pos hc] at h
        exact ⟨ctx, List.mem_cons_self _ _, h⟩
      · rw [if_neg hc] at h
        simp only [List.mem_append] at h
        rcases h with h | h
        · exact ⟨ctx, List.mem_cons_self _ _, h⟩
        · obtain ⟨c2, hc2, he2⟩ := ih h
          exact ⟨c2, List.mem_cons_of_mem _ hc2, he2⟩

theorem mailtoEmails_match {doc : Node} {e : String} (h : e ∈ mailtoEmails doc) :
    emailMatchStart e = true := by
  unfold mailtoEmails at h
  rw [List.mem_filterMap] at h
  obtain ⟨href, _, hsome⟩ := h
  by_cases h1 : strStarts href "mailto:" = true
  · rw [if_pos h1] at hsome
    simp only [] at hsome
    by_cases h2 : emailMatchStart (mailtoPayload href) = true
    · rw [if_pos h2] at hsome
      obtain rfl : mailtoPayload href = e := by simpa using hsome
      exact h2
    · rw [if_neg h2] at hsome
      simp at hsome
  · rw [if_neg h1] at hsome
    simp at hsome

theorem discoveredEmails_match {doc : Node} {e : String} (h : e ∈ discoveredEmails doc) :
    emailMatchStart e = true := by
  unfold discoveredEmails at h
  simp only [] at h
  by_cases h2 : (if (strategy1Emails doc).isEmpty = true then mailtoEmails doc
      else strategy1Emails doc).isEmpty = true
  · rw [if_pos h2] at h
    exact emailMatchStart_of_token (find_emails_token h)
  · rw [if_neg h2] at h
    by_cases h1 : (strategy1Emails doc).isEmpty = true
    · rw [if_pos h1] at h
      exact mailtoEmails_match h
    · rw [if_neg h1] at h
      obtain ⟨ctx, _, he⟩ := strategyLoop_fst_mem h
      exact emailMatchStart_of_token (find_emails_token he)

/-! ## Claim C7: the e-mails invariant of one result -/

/-- C7 (claim as stated is false; this is the counterexample): on a page
whose two `mailto:` anchors are discovered in the order `z@b.cd`,
`a@b.cd;`, the result lists them re-sorted (not in discovery order), and
the member `"a@b.cd;"` — accepted because `re.match` only anchors the
pattern at the start of the payload — does not match the canonical e-mail
pattern as a whole. -/
theorem C7_counterexample :
    (extract_mayor_from_municipality docMailtoFixture "u").emails =
      ["a@b.cd;", "z@b.cd"] ∧
    discoveredEmails docMailtoFixture = ["z@b.cd", "a@b.cd;"] ∧
    ¬ IsEmailToken ("a@b.cd;".data) := by
  refine ⟨by decide, by decide, ?_⟩
  intro htok
  have := token_chars htok ';' (by decide)
  rcases this with h | h
  · exact absurd h (by decide)
  · exact absurd h (by decide)

/-- C7 (amended): in every `ExtractionResult` produced by `extract`, the
`emails` field contains only strings that begin with a match of the
canonical e-mail pattern (`re.match` acceptance; the strategy-1 and
page-text addresses are full tokens, but a `mailto:` payload may carry a
trailer), contains no duplicates, and lists the addresses in ascending
code-point order — the result of Python's `sorted` — rather than in
discovery order. -/
theorem C7_emails_invariant (doc : Node) (url : String) :
    (∀ e ∈ (extract_mayor_from_municipality doc url).emails, emailMatchStart e = true) ∧
    (extract_mayor_from_municipality doc url).emails.Nodup ∧
    List.Sorted (· ≤ ·) (extract_mayor_from_municipality doc url).emails := by
  have hemails : (extract_mayor_from_municipality doc url).emails =
      sortedUnique (discoveredEmails doc) := rfl
  rw [hemails]
  refine ⟨?_, nodup_sortedUnique _, sorted_le_sortedUnique _⟩
  intro e he
  exact discoveredEmails_match (mem_sortedUnique.mp he)

/-- Witness for the amended C7 at a concrete page with two discovered
addresses. -/
theorem C7_emails_invariant_witness :
    emailMatchStart "z@b.cd" = true ∧
    (extract_mayor_from_municipality docMailtoFixture "u").emails.Nodup ∧
    List.Sorted (· ≤ ·) (extract_mayor_from_municipality docMailtoFixture "u").emails :=
  ⟨(C7_emails_invariant docMailtoFixture "u").1 "z@b.cd" (by decide),
   (C7_emails_invariant docMailtoFixture "u").2.1,
   (C7_emails_invariant docMailtoFixture "u").2.2⟩

/-! ## Claim C2: strategy-1 priority -/

/-- C2 (confirmed): whenever the structured-block strategy (strategy 1,
scoped to the official-title containers) yields a non-empty e-mail set,
the extractor's result is exactly that set — the whole-page `mailto:`
fallback and the page-text fallback are never consulted, whatever they
would match elsewhere on the page. -/
theorem C2_strategy1_priority (doc : Node) (url : String)
    (h : strategy1Emails doc ≠ []) :
    ∀ e, e ∈ (extract_mayor_from_municipality doc url).emails ↔
      e ∈ strategy1Emails doc := by
  intro e
  have hemails : (extract_mayor_from_municipality doc url).emails =
      sortedUnique (discoveredEmails doc) := rfl
  rw [hemails, mem_sortedUnique]
  unfold discoveredEmails
  simp only []
  have h1 : (strategy1Emails doc).isEmpty = false := by
    rw [List.isEmpty_eq_false]
    exact h
  rw [if_neg (by simp [h1]), if_neg (by simp [h1])]

/-- Witness for C2: on the fixture page, strategy 1 finds
`mayor@x.bg` inside the official's container; the result contains exactly
it, and not the decoy `mailto:` address present elsewhere. -/
theorem C2_strategy1_priority_witness :
    strategy1Emails docStrategy1Fixture ≠ [] ∧
    "mayor@x.bg" ∈ (extract_mayor_from_municipality docStrategy1Fixture "u").emails ∧
    "decoy@y.bg" ∉ (extract_mayor_from_municipality docStrategy1Fixture "u").emails := by
  refine ⟨by decide, ?_, ?_⟩
  · exact (C2_strategy1_priority docStrategy1Fixture "u" (by decide) "mayor@x.bg").mpr
      (by decide)
  · intro hmem
    have := (C2_strategy1_priority docStrategy1Fixture "u" (by decide) "decoy@y.bg").mp hmem
    exact absurd this (by decide)

/-! ## Claim C8: multiple e-mails are preserved, sorted and joined -/

/-- C8 (confirmed): the CSV row joins the result's e-mail list with
`"; "`; that list is Python-sorted, duplicate-free, and contains every
address the strategy chain discovered — multiple addresses are never
collapsed to one. -/
theorem C8_emails_joined (doc : Node) (url : String) :
    (csvRow (extract_mayor_from_municipality doc url))[2]? =
      some (String.intercalate "; " (extract_mayor_from_municipality doc url).emails) ∧
    List.Sorted (· ≤ ·) (extract_mayor_from_municipality doc url).emails ∧
    (∀ e ∈ discoveredEmails doc, e ∈ (extract_mayor_from_municipality doc url).emails) ∧
    (extract_mayor_from_municipality doc url).emails.Nodup := by
  have hemails : (extract_mayor_from_municipality doc url).emails =
      sortedUnique (discoveredEmails doc) := rfl
  refine ⟨rfl, ?_, ?_, ?_⟩
  · rw [hemails]
    exact sorted_le_sortedUnique _
  · intro e he
    rw [hemails, mem_sortedUnique]
    exact he
  · rw [hemails]
    exact nodup_sortedUnique _

/-- Witness for C8 on a page with two discovered addresses: both appear
in the result and the CSV cell joins them with `"; "`. -/
theorem C8_emails_joined_witness :
    (csvRow (extract_mayor_from_municipality docMailtoFixture "u"))[2]? =
      some (String.intercalate "; "
        (extract_mayor_from_municipality docMailtoFixture "u").emails) ∧
    "z@b.cd" ∈ (extract_mayor_from_municipality docMailtoFixture "u").emails ∧
    "a@b.cd;" ∈ (extract_mayor_from_municipality docMailtoFixture "u").emails :=
  ⟨(C8_emails_joined docMailtoFixture "u").1,
   (C8_emails_joined docMailtoFixture "u").2.2.1 "z@b.cd" (by decide),
   (C8_emails_joined docMailtoFixture "u").2.2.1 "a@b.cd;" (by decide)⟩

/-! ## Claim C4: pagination termination -/

theorem paginateGo_visits (pageDocs : Nat → Node) (canNext : Nat → Bool)
    {k cap : Nat} (hcan : ∀ i, canNext i = decide (i < k)) :
    ∀ (budget page : Nat) (acc : List MLink), budget = cap + 1 - page → 1 ≤ page →
      page ≤ k →
      (paginateGo pageDocs canNext cap budget page acc).fst =
        min (k + 1 - page) (cap + 1 - page) := by
  intro budget
  induction budget with
  | zero =>
      intro page acc hb h1 hk2
      rw [paginateGo]
      simp only []
      omega
  | succ b ih =>
      intro page acc hb h1 hk2
      rw [paginateGo]
      rw [if_neg (by omega)]
      simp only [hcan page]
      by_cases hpk : page < k
      · rw [if_pos (by simpa using hpk)]
        simp only []
        rw [ih (page + 1) _ (by omega) (by omega) (by omega)]
        omega
      · rw [if_neg (by simpa using hpk)]
        simp only []
        omega

/-- C4 (confirmed): when the next-page control is findable and clickable
on exactly the pages before page `k` and absent from page `k` on, the
pagination loop collects exactly `min k cap` listing pages and returns
normally — a failed find-or-click of `Следваща` is the ordinary loop exit,
not an error (`click_next_page` swallows every exception and returns a
boolean). -/
theorem C4_pagination_termination (pageDocs : Nat → Node) (canNext : Nat → Bool)
    (cap k : Nat) (hk : 1 ≤ k) (hcan : ∀ i, canNext i = decide (i < k)) :
    (paginate pageDocs canNext cap).fst = min k cap := by
  cases cap with
  | zero =>
      unfold paginate
      rw [paginateGo]
      simp
  | succ c =>
      unfold paginate
      rw [paginateGo_visits pageDocs canNext hcan (c + 1) 1 [] (by omega) (by omega) hk]
      omega

/-- Witness for C4: a listing whose next-page control disappears after
page 3 under a cap of 20 yields exactly 3 collected pages. -/
theorem C4_pagination_termination_witness :
    (paginate (fun _ => docListingFixture) (fun i => decide (i < 3)) 20).fst = 3 := by
  have h := C4_pagination_termination (fun _ => docListingFixture)
    (fun i => decide (i < 3)) 20 3 (by omega) (fun i => rfl)
  simpa using h

/-! ## Claim C9: non-positive page cap -/

/-- C9 (claim as stated is false; this is the counterexample): with the
page cap set to a non-positive value the program does not fail at
startup — there is no configuration validation anywhere in `main` — it
still navigates to the start URL and still writes output (the CSV header
row). -/
theorem C9_counterexample :
    (runMain (fun _ => docListingFixture) (fun _ => false) (fun _ => none) 0).navigatedStart
        = true ∧
    (runMain (fun _ => docListingFixture) (fun _ => false) (fun _ => none) 0).csv =
      [csvHeader] := by
  constructor <;> rfl

/-- C9 (amended): a non-positive `max_pages` cap is not validated and is
not fatal: the run proceeds, navigates to the start URL, executes zero
iterations of the pagination loop (no listing page is collected), visits
no detail page, and writes a CSV consisting of the header row only. -/
theorem C9_nonpositive_cap (pageDocs : Nat → Node) (canNext : Nat → Bool)
    (fetch : String → Option Node) :
    runMain pageDocs canNext fetch 0 =
      { navigatedStart := true, pagesVisited := 0, uniqueLinks := [], csv := [csvHeader] } := by
  rfl

/-! ## Deduplication lemmas -/

theorem addLink_nodupUrls {acc : List MLink} {l : MLink}
    (h : (acc.map MLink.url).Nodup) : ((addLink acc l).map MLink.url).Nodup := by
  unfold addLink
  split
  next => exact h
  next hany =>
      rw [List.map_append]
      refine List.Nodup.append h (List.nodup_singleton _) ?_
      intro x hx hx2
      simp only [List.map_cons, List.map_nil, List.mem_singleton] at hx2
      subst hx2
      rw [List.mem_map] at hx
      obtain ⟨m, hm, hmu⟩ := hx
      exact hany (by rw [List.any_eq_true]; exact ⟨m, hm, by simp [hmu]⟩)

theorem addNewLinks_nodupUrls {ls : List MLink} : ∀ {acc : List MLink},
    (acc.map MLink.url).Nodup → ((addNewLinks acc ls).map MLink.url).Nodup := by
  induction ls with
  | nil => intro acc h; exact h
  | cons l rest ih =>
      intro acc h
      simp only [addNewLinks, List.foldl_cons] at *
      exact ih (addLink_nodupUrls h)

theorem paginateGo_nodupUrls (pageDocs : Nat → Node) (canNext : Nat → Bool) (cap : Nat) :
    ∀ (budget page : Nat) (acc : List MLink), (acc.map MLink.url).Nodup →
      ((paginateGo pageDocs canNext cap budget page acc).snd.map MLink.url).Nodup := by
  intro budget
  induction budget with
  | zero =>
      intro page acc h
      rw [paginateGo]
      exact h
  | succ b ih =>
      intro page acc h
      rw [paginateGo]
      split
      next => exact h
      next =>
          simp only []
          split
          next => exact ih (page + 1) _ (addNewLinks_nodupUrls h)
          next => exact addNewLinks_nodupUrls h

/-- The joint specification of the seen-set deduplication pass. -/
theorem dedupGo_spec : ∀ (ls : List MLink) (seen : List String),
    ((dedupGo seen ls).map MLink.url).Nodup ∧
    (∀ x ∈ dedupGo seen ls, x.url ∉ seen) ∧
    (dedupGo seen ls).Sublist ls ∧
    (∀ l ∈ ls, l.url ∈ seen ∨ l.url ∈ (dedupGo seen ls).map MLink.url) ∧
    (∀ x ∈ dedupGo seen ls, ls.find? (fun m => m.url == x.url) = some x) := by
  intro ls
  induction ls with
  | nil =>
      intro seen
      refine ⟨by simp [dedupGo], by simp [dedupGo], by simp [dedupGo], by simp, by simp [dedupGo]⟩
  | cons l rest ih =>
      intro seen
      rw [dedupGo]
      by_cases hc : seen.contains l.url = true
      · rw [if_pos hc]
        obtain ⟨h1, h2, h3, h4, h5⟩ := ih seen
        have hlmem : l.url ∈ seen := List.mem_of_elem_eq_true hc
        refine ⟨h1, h2, h3.cons _, ?_, ?_⟩
        · intro x hx
          rcases List.mem_cons.mp hx with rfl | hx2
          · exact Or.inl hlmem
          · exact h4 x hx2
        · intro x hx
          rw [List.find?]
          have hne : (l.url == x.url) = false := by
            simp only [beq_eq_false_iff_ne, ne_eq]
            intro heq
            exact h2 x hx (heq ▸ hlmem)
          rw [hne]
          exact h5 x hx
      · rw [if_neg hc]
        obtain ⟨h1, h2, h3, h4, h5⟩ := ih (l.url :: seen)
        have hlnot : l.url ∉ seen := by
          intro hmem
          exact hc (List.elem_eq_true_of_mem hmem)
        refine ⟨?_, ?_, h3.cons₂ _, ?_, ?_⟩
        · rw [List.map_cons, List.nodup_cons]
          refine ⟨?_, h1⟩
          intro hmem
          rw [List.mem_map] at hmem
          obtain ⟨x, hx, hxu⟩ := hmem
          exact h2 x hx (by rw [hxu]; exact List.mem_cons_self _ _)
        · intro x hx
          rcases List.mem_cons.mp hx with rfl | hx2
          · exact hlnot
          · intro hxs
            exact h2 x hx2 (List.mem_cons_of_mem _ hxs)
        · intro m hm
          rcases List.mem_cons.mp hm with rfl | hm2
          · exact Or.inr (by rw [List.map_cons]; exact List.mem_cons_self _ _)
          · rcases h4 m hm2 with hs | hmm2
            · rcases List.mem_cons.mp hs with heq | hs2
              · exact Or.inr (by rw [List.map_cons, heq]; exact List.mem_cons_self _ _)
              · exact Or.inl hs2
            · exact Or.inr (by rw [List.map_cons]; exact List.mem_cons_of_mem _ hmm2)
        · intro x hx
          rcases List.mem_cons.mp hx with rfl | hx2
          · rw [List.find?]
            simp
          · rw [List.find?]
            have hne : (l.url == x.url) = false := by
              simp only [beq_eq_false_iff_ne, ne_eq]
              intro heq
              exact h2 x hx2 (heq ▸ List.mem_cons_self _ _)
            rw [hne]
            exact h5 x hx2

/-! ## Claim C10: the defensive second deduplication pass is the identity -/

theorem dedupGo_eq_self : ∀ {ls : List MLink} {seen : List String},
    (ls.map MLink.url).Nodup → (∀ l ∈ ls, l.url ∉ seen) → dedupGo seen ls = ls := by
  intro ls
  induction ls with
  | nil => intro seen _ _; rfl
  | cons l rest ih =>
      intro seen hnd hdisj
      have hnotin : l.url ∉ seen := hdisj l (List.mem_cons_self _ _)
      rw [dedupGo, if_neg (by simp [hnotin])]
      congr 1
      apply ih (List.Nodup.of_cons (by simpa using hnd))
      intro x hx
      simp only [List.mem_cons]
      rintro (h1 | h2)
      · have hx2 : x.url ∈ rest.map MLink.url := List.mem_map_of_mem _ hx
        rw [h1] at hx2
        simp only [List.map_cons, List.nodup_cons] at hnd
        exact hnd.1 hx2
      · exact hdisj x (List.mem_cons_of_mem _ hx) h2

/-- C10 (confirmed): the pagination accumulator never holds two links
with the same URL (each URL is checked against the accumulated set before
being appended), so the defensive second deduplication pass of `main` is
the identity: `unique_links` equals `all_municipality_links` element for
element and in the same order. -/
theorem C10_second_dedup_identity (pageDocs : Nat → Node) (canNext : Nat → Bool)
    (cap : Nat) :
    ((paginate pageDocs canNext cap).snd.map MLink.url).Nodup ∧
    dedupByUrl (paginate pageDocs canNext cap).snd = (paginate pageDocs canNext cap).snd := by
  have hnd : ((paginate pageDocs canNext cap).snd.map MLink.url).Nodup :=
    paginateGo_nodupUrls pageDocs canNext cap cap 1 [] (by simp)
  exact ⟨hnd, dedupGo_eq_self hnd (by simp)⟩

/-! ## Claim C6: the link collector -/

/-- C6 (confirmed): the link list of one listing page holds no two
entries with the same absolutized URL; it is a subsequence of the
qualifying anchors in document order; each kept entry is the first
qualifying anchor carrying its URL; every qualifying anchor's URL is
represented; and the output depends only on the sequence of qualifying
anchors, so it is unchanged by reordering or inserting anchors whose
visible text does not contain the marker phrase. -/
theorem C6_link_collector (doc : Node) :
    ((collect_municipality_links_from_page doc).map MLink.url).Nodup ∧
    (collect_municipality_links_from_page doc).Sublist (qualifiedLinks doc) ∧
    (∀ x ∈ collect_municipality_links_from_page doc,
      (qualifiedLinks doc).find? (fun m => m.url == x.url) = some x) ∧
    (∀ l ∈ qualifiedLinks doc,
      l.url ∈ (collect_municipality_links_from_page doc).map MLink.url) ∧
    (∀ doc2, qualifiedLinks doc2 = qualifiedLinks doc →
      collect_municipality_links_from_page doc2 = collect_municipality_links_from_page doc) := by
  obtain ⟨h1, h2, h3, h4, h5⟩ := dedupGo_spec (qualifiedLinks doc) []
  refine ⟨h1, h3, h5, ?_, ?_⟩
  · intro l hl
    rcases h4 l hl with hs | hm
    · simp at hs
    · exact hm
  · intro doc2 heq
    unfold collect_municipality_links_from_page dedupByUrl
    rw [heq]

/-- Witness for C6 on a listing with a duplicated qualifying anchor:
both distinct URLs are kept, and a page that reorders and extends only
the unrelated anchors yields the same list. -/
theorem C6_link_collector_witness :
    ((collect_municipality_links_from_page docListingFixture).map MLink.url).Nodup ∧
    "https://iisda.government.bg/ras/m1" ∈
      (collect_municipality_links_from_page docListingFixture).map MLink.url ∧
    collect_municipality_links_from_page docListingFixture2 =
      collect_municipality_links_from_page docListingFixture :=
  ⟨(C6_link_collector docListingFixture).1,
   (C6_link_collector docListingFixture).2.2.2.1
     ⟨"Общинска администрация - Първа", "https://iisda.government.bg/ras/m1"⟩ (by decide),
   (C6_link_collector docListingFixture).2.2.2.2 docListingFixture2 (by decide)⟩

/-! ## Claim C1: one row per link -/

theorem substRow_url (l : MLink) (doc : Node) : (substRow l doc).url = l.url := by
  unfold substRow
  simp only []
  split <;> rfl

theorem runExtractionLoop_urls {fetch : String → Option Node} :
    ∀ {links : List MLink} {r : ExtractionResult}, r ∈ runExtractionLoop fetch links →
      r.url ∈ links.map MLink.url := by
  intro links
  induction links with
  | nil =>
      intro r h
      simp [runExtractionLoop] at h
  | cons l rest ih =>
      intro r h
      rw [runExtractionLoop] at h
      cases hf : fetch l.url with
      | some doc =>
          rw [hf] at h
          rcases List.mem_cons.mp h with rfl | h2
          · rw [List.map_cons, substRow_url]
            exact List.mem_cons_self _ _
          · exact List.mem_cons_of_mem _ (ih h2)
      | none =>
          rw [hf] at h
          exact List.mem_cons_of_mem _ (ih h)

/-- C1 (claim as stated is false; this is the counterexample): with two
discovered links, where extraction of the second raises, the orchestrator
produces only one row — the `except` branch of `main` merely prints the
error and appends nothing, so the faulting link is omitted instead of
yielding a substituted row. -/
theorem C1_counterexample :
    runExtractionLoop
        (fun u => if u == "https://iisda.government.bg/ras/m1" then some docBareFixture
          else none)
        [⟨"Общинска администрация - Първа", "https://iisda.government.bg/ras/m1"⟩,
         ⟨"Общинска администрация - Втора", "https://iisda.government.bg/ras/m2"⟩] =
      [⟨"Община Празна", "", [], "https://iisda.government.bg/ras/m1"⟩] := by
  decide

/-- C1 (amended): every link whose detail extraction completes without
fault yields exactly one row — the extractor's result with the link's
display text substituted for an empty municipality name — while a link on
which the extractor raises yields no row at all; the run continues either
way. -/
theorem C1_rows_per_link (fetch : String → Option Node) :
    ∀ links : List MLink, (links.map MLink.url).Nodup →
    (∀ l ∈ links, fetch l.url = none →
      (runExtractionLoop fetch links).filter (fun r => r.url == l.url) = []) ∧
    (∀ l ∈ links, ∀ doc, fetch l.url = some doc →
      (runExtractionLoop fetch links).filter (fun r => r.url == l.url) =
        [substRow l doc]) := by
  intro links
  induction links with
  | nil =>
      intro _
      exact ⟨by simp, by simp⟩
  | cons l0 rest ih =>
      intro hnodup
      simp only [List.map_cons, List.nodup_cons] at hnodup
      obtain ⟨hnotin, hnd⟩ := hnodup
      obtain ⟨ihA, ihB⟩ := ih hnd
      have hrest_ne : ∀ {r : ExtractionResult}, r ∈ runExtractionLoop fetch rest →
          (r.url == l0.url) = false := by
        intro r hr
        have hru := runExtractionLoop_urls hr
        simp only [beq_eq_false_iff_ne, ne_eq]
        intro heq
        rw [heq] at hru
        exact hnotin hru
      have hl_ne : ∀ l ∈ rest, (l.url == l0.url) = false ∧ (l0.url == l.url) = false := by
        intro l hl
        have : l.url ∈ rest.map MLink.url := List.mem_map_of_mem _ hl
        constructor <;> simp only [beq_eq_false_iff_ne, ne_eq] <;> intro heq
        · rw [heq] at this
          exact hnotin this
        · rw [← heq] at this
          exact hnotin this
      constructor
      · intro l hl hfn
        rw [runExtractionLoop]
        rcases List.mem_cons.mp hl with rfl | hl2
        · rw [hfn, List.filter_eq_nil_iff]
          intro r hr
          simp [hrest_ne hr]
        · cases hf0 : fetch l0.url with
          | some doc0 =>
              rw [List.filter_cons]
              rw [if_neg (by rw [substRow_url]; simp [(hl_ne l hl2).2])]
              exact ihA l hl2 hfn
          | none => exact ihA l hl2 hfn
      · intro l hl doc hfs
        rw [runExtractionLoop]
        rcases List.mem_cons.mp hl with rfl | hl2
        · rw [hfs, List.filter_cons]
          rw [if_pos (by rw [substRow_url]; simp)]
          congr 1
          rw [List.filter_eq_nil_iff]
          intro r hr
          simp [hrest_ne hr]
        · cases hf0 : fetch l0.url with
          | some doc0 =>
              rw [List.filter_cons]
              rw [if_neg (by rw [substRow_url]; simp [(hl_ne l hl2).2])]
              exact ihB l hl2 doc hfs
          | none => exact ihB l hl2 doc hfs

/-- Witness for the amended C1: on the two-link run of the
counterexample, the fetched link contributes exactly its substituted row
and the faulting link contributes none. -/
theorem C1_rows_per_link_witness :
    (runExtractionLoop
        (fun u => if u == "https://iisda.government.bg/ras/m1" then some docBareFixture
          else none)
        [⟨"Общинска администрация - Първа", "https://iisda.government.bg/ras/m1"⟩,
         ⟨"Общинска администрация - Втора", "https://iisda.government.bg/ras/m2"⟩]).filter
      (fun r => r.url == "https://iisda.government.bg/ras/m2") = [] ∧
    (runExtractionLoop
        (fun u => if u == "https://iisda.government.bg/ras/m1" then some docBareFixture
          else none)
        [⟨"Общинска администрация - Първа", "https://iisda.government.bg/ras/m1"⟩,
         ⟨"Общинска администрация - Втора", "https://iisda.government.bg/ras/m2"⟩]).filter
      (fun r => r.url == "https://iisda.government.bg/ras/m1") =
      [substRow ⟨"Общинска администрация - Първа", "https://iisda.government.bg/ras/m1"⟩
        docBareFixture] :=
  ⟨(C1_rows_per_link _ _ (by decide)).1
      ⟨"Общинска администрация - Втора", "https://iisda.government.bg/ras/m2"⟩
      (by decide) rfl,
   (C1_rows_per_link _ _ (by decide)).2
      ⟨"Общинска администрация - Първа", "https://iisda.government.bg/ras/m1"⟩
      (by decide) docBareFixture rfl⟩

/-! ## Graceful degradation: emptiness of each strategy -/

theorem startsList_of_startsList_append : ∀ {n h m : List Char},
    startsList h (n ++ m) = true → startsList h n = true := by
  intro n
  induction n with
  | nil =>
      intro h m _
      cases h <;> rfl
  | cons c cs ih =>
      intro h m hs
      cases h with
      | nil =>
          rw [List.cons_append] at hs
          simp [startsList] at hs
      | cons d ds =>
          rw [List.cons_append, startsList, Bool.and_eq_true] at hs
          rw [startsList, Bool.and_eq_true]
          exact ⟨hs.1, ih hs.2⟩

theorem hasSubList_of_append {n m : List Char} : ∀ {h : List Char},
    hasSubList h (n ++ m) = true → hasSubList h n = true := by
  intro h
  induction h with
  | nil =>
      intro hs
      rw [hasSubList] at hs ⊢
      simp at hs ⊢
      exact hs.1
  | cons c cs ih =>
      intro hs
      rw [hasSubList, Bool.or_eq_true] at hs
      rw [hasSubList, Bool.or_eq_true]
      rcases hs with hs | hs
      · exact Or.inl (startsList_of_startsList_append hs)
      · exact Or.inr (ih hs)

theorem strContains_of_append {s p q : String} (hq : q.data = p.data ++ (q.data.drop p.data.length))
    (h : strContains s q = true) : strContains s p = true := by
  unfold strContains at h ⊢
  rw [hq] at h
  exact hasSubList_of_append h

theorem strContains_of_strStarts {s p : String} (h : strStarts s p = true) :
    strContains s p = true := by
  unfold strStarts at h
  unfold strContains
  cases hd : s.data with
  | nil =>
      rw [hd] at h
      cases hp : p.data with
      | nil => rfl
      | cons c cs => rw [hp] at h; simp [startsList] at h
  | cons c cs =>
      rw [hd] at h
      rw [hasSubList, Bool.or_eq_true]
      exact Or.inl h

theorem textCtxList_of_no_match {pred : String → Bool} :
    ∀ (parent : Node) (pn ppn : Option Node) (ns : List Node),
      (∀ s ∈ stringsOfList parent ns, pred s = false) →
      textCtxList pred parent pn ppn ns = [] := by
  intro parent pn ppn ns
  induction parent, pn, ppn, ns using textCtxList.induct pred with
  | case1 parent pn ppn => intro _; rfl
  | case2 parent pn ppn s rest ih =>
      intro h
      have hs : pred s = false := h s (by rw [stringsOfList]; exact List.mem_cons_self _ _)
      rw [textCtxList, hs]
      simp only [Bool.false_eq_true, if_false, List.nil_append]
      exact ih (fun t ht => h t (by rw [stringsOfList]; exact List.mem_cons_of_mem _ ht))
  | case3 parent pn ppn t a cs rest ih1 ih2 =>
      intro h
      have hsplit : ∀ s ∈ stringsOfList (Node.elem t a cs) cs ++ stringsOfList parent rest,
          pred s = false := fun s hs => h s (by rw [stringsOfList]; exact hs)
      rw [textCtxList,
        ih1 (fun s hs => hsplit s (List.mem_append_left _ hs)),
        ih2 (fun s hs => hsplit s (List.mem_append_right _ hs))]
      rfl

theorem findFirstString_of_no_match {pred : String → Bool} :
    ∀ (ctx : Node) (ns : List Node) (ancs : List Anc),
      (∀ s ∈ stringsOfList ctx ns, pred s = false) →
      findFirstString pred ctx ns ancs = none := by
  intro ctx ns ancs
  induction ctx, ns, ancs using findFirstString.induct pred with
  | case1 ctx ancs => intro _; rfl
  | case2 ctx s rest ancs hp =>
      intro h
      have hs : pred s = false := h s (by rw [stringsOfList]; exact List.mem_cons_self _ _)
      simp [hs] at hp
  | case3 ctx s rest ancs hp ih =>
      intro h
      rw [findFirstString, if_neg hp]
      exact ih (fun t ht => h t (by rw [stringsOfList]; exact List.mem_cons_of_mem _ ht))
  | case4 ctx t a cs rest ancs info heq ih =>
      intro h
      have hin := ih (fun s hs => h s (by
        rw [stringsOfList]; exact List.mem_append_left _ hs))
      rw [hin] at heq
      exact absurd heq (by simp)
  | case5 ctx t a cs rest ancs heq ih1 ih2 =>
      intro h
      rw [findFirstString, heq]
      exact ih2 (fun s hs => h s (by
        rw [stringsOfList]; exact List.mem_append_right _ hs))

theorem mem_stringsOf_children {doc : Node} {s : String}
    (h : s ∈ stringsOfList doc (childrenOf doc)) : s ∈ stringsOf doc := by
  cases doc with
  | text t => simp [childrenOf, stringsOfList] at h
  | elem t a cs =>
      have hrw : stringsOf (Node.elem t a cs) =
          stringsOfList (Node.elem t a cs) cs ++ [] := rfl
      rw [hrw, List.append_nil]
      simp only [childrenOf] at h
      exact h

theorem textCtxs_of_no_match {pred : String → Bool} {doc : Node}
    (h : ∀ s ∈ stringsOf doc, pred s = false) :
    textCtxs pred doc = [] := by
  apply textCtxList_of_no_match
  intro s hs
  exact h s (mem_stringsOf_children hs)

theorem findLabel_of_no_match {pred : String → Bool} {doc : Node}
    (h : ∀ s ∈ stringsOf doc, pred s = false) :
    findLabel pred doc = none := by
  apply findFirstString_of_no_match
  intro s hs
  exact h s (mem_stringsOf_children hs)

theorem strategy1Result_of_no_kmet {doc : Node}
    (hk : ∀ s ∈ stringsOf doc, strContains s "Кмет" = false) :
    strategy1Result doc = ([], "") := by
  have h1 : textCtxs (fun t => strContains t "Кмет на община") doc = [] := by
    apply textCtxs_of_no_match
    intro s hs
    cases hc : strContains s "Кмет на община" with
    | false => rfl
    | true =>
        have hsub : strContains s "Кмет" = true :=
          @strContains_of_append s "Кмет" "Кмет на община" (by decide) hc
        rw [hk s hs] at hsub
        exact Bool.noConfusion hsub
  have h2 : textCtxs (fun t => strContains t "Кмет" && !strContains t "Общ.") doc = [] := by
    apply textCtxs_of_no_match
    intro s hs
    rw [hk s hs]
    rfl
  unfold strategy1Result mayorTextCtxs
  simp only []
  rw [h1, h2]
  rfl

theorem mailtoEmails_of_no_mailto {doc : Node}
    (h : ∀ n ∈ descTags doc,
        Option.all (fun href => !strContains href "mailto:") (attrOf "href" n) = true) :
    mailtoEmails doc = [] := by
  unfold mailtoEmails
  rw [List.filterMap_eq_nil_iff]
  intro href hmem
  rcases List.mem_filterMap.mp hmem with ⟨n, hn, hf⟩
  have hf' : attrOf "href" n = some href := by
    by_cases ha : isTagNamed "a" n = true
    · rwa [if_pos ha] at hf
    · rw [if_neg ha] at hf
      exact absurd hf (by simp)
  have hall := h n hn
  rw [hf'] at hall
  have hb : (!strContains href "mailto:") = true := hall
  have hc : strContains href "mailto:" = false := by
    cases hcc : strContains href "mailto:" with
    | false => rfl
    | true => rw [hcc] at hb; exact absurd hb (by decide)
  have hs : strStarts href "mailto:" = false := by
    cases hst : strStarts href "mailto:" with
    | false => rfl
    | true => rw [strContains_of_strStarts hst] at hc; exact Bool.noConfusion hc
  simp [hs]

theorem discoveredEmails_empty {doc : Node}
    (hk : ∀ s ∈ stringsOf doc, strContains s "Кмет" = false)
    (hm : ∀ n ∈ descTags doc,
        Option.all (fun href => !strContains href "mailto:") (attrOf "href" n) = true)
    (ht : ∀ u t v, IsEmailToken t → (getText " " false doc).data ≠ u ++ t ++ v) :
    discoveredEmails doc = [] := by
  have h1 : strategy1Emails doc = [] := by
    unfold strategy1Emails
    rw [strategy1Result_of_no_kmet hk]
  have h3 : find_emails_in_html (getText " " false doc) = [] := by
    unfold find_emails_in_html
    rw [scanEmails_eq_nil_of_no_token ht]
    rfl
  unfold discoveredEmails
  simp only []
  rw [h1, mailtoEmails_of_no_mailto hm, h3]
  rfl

theorem emailTextOf_of_no_label {doc : Node}
    (he : ∀ s ∈ stringsOf doc, strContains s "Електронна поща" = false) :
    emailTextOf doc = "" := by
  have hl : findLabel (fun s => !s.isEmpty && strContains s "Електронна поща") doc = none :=
    findLabel_of_no_match (fun s hs => by rw [he s hs]; exact Bool.and_false _)
  unfold emailTextOf
  rw [hl]

/-- C3: on a detail page with no official-title or label structure (no
text node contains `"Кмет"` or `"Електронна поща"`), no `mailto:` hrefs
anywhere, and no e-mail token anywhere in the page text, both extractors
run to completion (they are total Lean functions) and return a full
`ExtractionResult` whose `emails` field is the empty list and whose `url`
field is the requested URL. -/
theorem C3_graceful_degradation (doc docB : Node) (url : String)
    (hk : ∀ s ∈ stringsOf doc, strContains s "Кмет" = false)
    (he : ∀ s ∈ stringsOf doc, strContains s "Електронна поща" = false)
    (hm : ∀ n ∈ descTags doc,
        Option.all (fun href => !strContains href "mailto:") (attrOf "href" n) = true)
    (ht : ∀ u t v, IsEmailToken t → (getText " " false doc).data ≠ u ++ t ++ v) :
    (extract_mayor_from_municipality doc url).emails = [] ∧
    (extract_mayor_from_municipality doc url).url = url ∧
    (MayorScraper.extract_mayor_from_municipality docB doc url).emails = [] ∧
    (MayorScraper.extract_mayor_from_municipality docB doc url).url = url := by
  refine ⟨?_, rfl, ?_, rfl⟩
  · show sortedUnique (discoveredEmails doc) = []
    rw [discoveredEmails_empty hk hm ht]
    rfl
  · show (if (emailTextOf doc).isEmpty then [] else [emailTextOf doc]) = []
    rw [emailTextOf_of_no_label he]
    rfl

/-- Witness for C3 at the bare fixture page, whose text nodes carry no
official-title text, no label, no `mailto:` href and no `@` at all. -/
theorem C3_graceful_degradation_witness :
    (extract_mayor_from_municipality docBareFixture "u").emails = [] ∧
    (extract_mayor_from_municipality docBareFixture "u").url = "u" ∧
    (MayorScraper.extract_mayor_from_municipality docBareFixture docBareFixture "u").emails = [] ∧
    (MayorScraper.extract_mayor_from_municipality docBareFixture docBareFixture "u").url = "u" := by
  apply C3_graceful_degradation docBareFixture docBareFixture "u"
  · decide
  · decide
  · decide
  · intro u t v htok heq
    obtain ⟨l, d, a, _, rfl⟩ := htok
    have hat : '@' ∈ (getText " " false docBareFixture).data := by
      rw [heq]
      simp
    exact absurd hat (by decide)
